import Mathlib

/-!
Verification of the go-bls protocol layer (enzoh/go-bls).

The repository implements the Boneh-Lynn-Shacham signature scheme on top of
the PBC pairing engine.  The engine is an external collaborator: it provides
three cyclic groups G1, G2, GT of prime order r, a bilinear pairing
e : G1 x G2 -> GT, hash-to-group maps and compressed serialization of G1
elements.  We embed the engine faithfully in exponent form: an element of
G1, G2 or GT is represented by its discrete logarithm in `ZMod r` with
respect to a fixed generator of the respective group, so that

  * `element_mul` (the group operation, written multiplicatively by PBC)
    becomes addition in `ZMod r`,
  * `element_pow_zn` / `element_pow_mpz` (exponentiation) becomes scalar
    multiplication, i.e. multiplication in `ZMod r`,
  * `element_set1` (the identity) becomes `0`, `element_invert` becomes
    negation, `element_is1` becomes an equality test with `0`,
  * the pairing `e(a^x, b^y) = e(a,b)^(x*y)` becomes multiplication of the
    exponents in `ZMod r`,
  * `element_from_hash` into G1 is an arbitrary function parameter `hG1`,
  * the compressed serialization of a G1 element is a byte string of exactly
    `signatureLength` bytes determined by the element; we model it as the
    pair of the byte length and the element.

Randomness (`randomHash` followed by `element_from_hash` into Zr or G2) is
modelled by taking the drawn scalars as explicit arguments.

The sorting utility of util.go operates on `common.Hash` values (fixed-width
32-byte arrays) and compares them through `Hash.Big()`, the big-endian
numeric value, so the order is the numeric order and two hashes are equal
iff their numeric values are equal; a digest is therefore modelled as the
natural number given by `Hash.Big()`.
-/

namespace GoBls

/-- A digest (`common.Hash`), identified with its `Big()` numeric value. -/
abbrev Digest := ℕ

/-- The error values returned by the library (bls.go builds them with
`errors.New`); each constructor corresponds to one distinct message text. -/
inductive BlsError where
  /-- "Empty list." (Aggregate, AggregateVerify, Recover) -/
  | emptyList : BlsError
  /-- "List length mismatch." (AggregateVerify, Recover) -/
  | listLengthMismatch : BlsError
  /-- "Signature length must be positive." (Sign, Verify, Aggregate,
  AggregateVerify, Recover) -/
  | sigLenNonPositive : BlsError
  /-- "Signature length mismatch." (Verify, Aggregate, AggregateVerify,
  Recover) -/
  | sigLenMismatch : BlsError
  /-- "Bad threshold parameters." (GenKeyShares) -/
  | badThreshold : BlsError
  /-- "Hashes must be distinct." (AggregateVerify) -/
  | hashesNotDistinct : BlsError
deriving DecidableEq, Repr

/-- A byte string produced by `element_to_bytes_compressed`: `len` is its
byte length (`signatureLength` at creation time) and `val` the G1 element it
encodes.  Compressed encoding is deterministic and injective, so equality of
this pair is equality of the byte strings. -/
structure Sig (r : ℕ) where
  len : ℤ
  val : ZMod r
deriving DecidableEq

instance (r : ℕ) : Inhabited (Sig r) := ⟨⟨0, 0⟩⟩

instance {ε α : Type*} [DecidableEq ε] [DecidableEq α] :
    DecidableEq (Except ε α) := fun a b =>
  match a, b with
  | .error e, .error f =>
    if h : e = f then .isTrue (congrArg Except.error h)
    else .isFalse (fun hc => h (by cases hc; rfl))
  | .error _, .ok _ => .isFalse (fun hc => Except.noConfusion hc)
  | .ok _, .error _ => .isFalse (fun hc => Except.noConfusion hc)
  | .ok a, .ok b =>
    if h : a = b then .isTrue (congrArg Except.ok h)
    else .isFalse (fun hc => h (by cases hc; rfl))

/-- The cryptosystem (`System` in bls.go): the generator `g` of G2 drawn by
`GenSystem` (in exponent form) and the compressed-G1 byte length reported by
the pairing.  `signatureLength` is a Go `int`, hence `ℤ`. -/
structure System (r : ℕ) where
  g : ZMod r
  signatureLength : ℤ
deriving DecidableEq

instance (r : ℕ) : Inhabited (System r) := ⟨⟨0, 0⟩⟩

/-- `PublicKey` of bls.go: the system and `gx = g^x` (in exponent form). -/
structure PublicKey (r : ℕ) where
  system : System r
  gx : ZMod r
deriving DecidableEq

instance (r : ℕ) : Inhabited (PublicKey r) := ⟨⟨default, 0⟩⟩

/-- `PrivateKey` of bls.go: the system and the secret scalar `x ∈ Zr`. -/
structure PrivateKey (r : ℕ) where
  system : System r
  x : ZMod r
deriving DecidableEq

instance (r : ℕ) : Inhabited (PrivateKey r) := ⟨⟨default, 0⟩⟩

section Core

variable (r : ℕ)

/-- `GenKeys` (bls.go, lines 166-187): draw a random scalar `x` (here the
argument, standing for `element_from_hash` of the fresh random hash into Zr)
and return the key pair `(PublicKey {system, g^x}, PrivateKey {system, x})`.
The entropy-failure path of `randomHash` is not modelled. -/
def GenKeys (system : System r) (x : ZMod r) : PublicKey r × PrivateKey r :=
  (⟨system, x * system.g⟩, ⟨system, x⟩)

variable (hG1 : Digest → ZMod r)

/-- `Sign` (bls.go, lines 267-295): check `signatureLength > 0`, map the
digest into G1 (`h := hG1 hash`), compute `sigma = h^x` and serialize it. -/
def Sign (hash : Digest) (secret : PrivateKey r) : Except BlsError (Sig r) :=
  if secret.system.signatureLength ≤ 0 then .error .sigLenNonPositive
  else
    let h := hG1 hash
    let sigma := secret.x * h
    .ok ⟨secret.system.signatureLength, sigma⟩

/-- `Verify` (bls.go, lines 298-342): after the two length checks, decode
`sigma`, compute `lhs = e(sigma, g)` and `rhs = e(h, gx)`, and test
`lhs * rhs⁻¹ = 1` in GT (in exponent form: `lhs - rhs = 0`). -/
def Verify (signature : Sig r) (hash : Digest) (key : PublicKey r) :
    Except BlsError Bool :=
  if key.system.signatureLength ≤ 0 then .error .sigLenNonPositive
  else if key.system.signatureLength ≠ signature.len then .error .sigLenMismatch
  else
    let sigma := signature.val
    let lhs := sigma * key.system.g
    let h := hG1 hash
    let rhs := h * key.gx
    .ok (decide (lhs - rhs = 0))

/-- `Aggregate` (bls.go, lines 345-384): check the list is not empty, that
`signatureLength` is positive and that every signature has that length, then
decode `signatures[0]` and multiply the remaining decoded signatures into it
(in exponent form: add them), and serialize the product. -/
def Aggregate (signatures : List (Sig r)) (system : System r) :
    Except BlsError (Sig r) :=
  match signatures with
  | [] => .error .emptyList
  | s0 :: rest =>
    if system.signatureLength ≤ 0 then .error .sigLenNonPositive
    else if (s0 :: rest).any (fun s => s.len ≠ system.signatureLength) then
      .error .sigLenMismatch
    else
      let sigma := rest.foldl (fun acc s => acc + s.val) s0.val
      .ok ⟨system.signatureLength, sigma⟩

/-- `GenKeyShares` (bls.go, lines 194-264): check `1 ≤ t ≤ n`, draw the `t`
random polynomial coefficients (here the argument `coeff`, standing for the
scalars obtained by `element_from_hash` of fresh random hashes), then for
every evaluation point `i = 0..n` accumulate the private share
`secrets[i].x` from `element_set0` by adding `coeff[j] * i^j` for
`j = 0..t-1`, where `i^j` is the big.Int `Exp` (so `0^0 = 1`) reduced mod r
by `element_mul_mpz`, and derive the public share `g^secrets[i].x`.  The
function returns `(keys[0], keys[1:], secrets[0], secrets[1:])`. -/
def GenKeyShares (t n : ℕ) (coeff : ℕ → ZMod r) (system : System r) :
    Except BlsError
      (PublicKey r × List (PublicKey r) × PrivateKey r × List (PrivateKey r)) :=
  if t < 1 ∨ n < t then .error .badThreshold
  else
    let secret : ℕ → ZMod r := fun i =>
      (List.range t).foldl (fun acc j => acc + coeff j * ((i ^ j : ℕ) : ZMod r)) 0
    let secrets : List (PrivateKey r) :=
      (List.range (n + 1)).map fun i => ⟨system, secret i⟩
    let keys : List (PublicKey r) :=
      (List.range (n + 1)).map fun i => ⟨system, secret i * system.g⟩
    .ok (keys.headI, keys.tail, secrets.headI, secrets.tail)

end Core

/-- The outcome of `Recover`.  Besides returning a signature or an error,
`Recover` can crash: when `big.Int.ModInverse` finds no inverse it returns
`nil`, and the subsequent `v.Mod(v.ModInverse(q, r), r)` dereferences the
nil pointer.  `panics` records that outcome. -/
inductive RecOut (r : ℕ) where
  | ok (signature : Sig r) : RecOut r
  | err (e : BlsError) : RecOut r
  | panics : RecOut r
deriving DecidableEq

/-- Model of `big.Int.ModInverse(q, r)`: the unique integer in `[0, r)`
whose product with `q` is congruent to `1` mod `r`, when it exists; `none`
models the `nil` result returned when `q` has no inverse mod `r`.
(Comparing with `1 % r` instead of `1` makes the modulus-one case agree
with Go, where the inverse in the trivial ring is `0`.) -/
def goModInverse (q : ℤ) (r : ℕ) : Option ℕ :=
  (List.range r).find? fun x => (q * x).emod r = 1 % (r : ℤ)

/-- The numerator product `p` of the Lagrange coefficient loop of `Recover`
(bls.go, lines 496-503): over every `j` whose member id differs from
`memberIds[i]`, multiply `-(memberIds[j] + 1)` into `p`, over the
integers. -/
def lagrangeNumer (memberIds : List ℤ) (idi : ℤ) : ℤ :=
  memberIds.foldl (fun a idj => if idi ≠ idj then a * (-(idj + 1)) else a) 1

/-- The denominator product `q` of the Lagrange coefficient loop of
`Recover` (bls.go, lines 496-503): over every `j` whose member id differs
from `memberIds[i]`, multiply `(memberIds[i]+1) - (memberIds[j]+1)` into
`q`, over the integers. -/
def lagrangeDenom (memberIds : List ℤ) (idi : ℤ) : ℤ :=
  memberIds.foldl (fun a idj => if idi ≠ idj then a * ((idi + 1) - (idj + 1)) else a) 1

/-- The Lagrange exponent computed by one iteration of the `Recover` loop
(bls.go, lines 495-509): `lambda = ((p mod r) * ModInverse(q, r)) mod r`,
computed with Euclidean `big.Int` operations and imported as a non-negative
exponent; `none` models the nil-pointer panic when `ModInverse` fails. -/
def lagrangeLam (r : ℕ) (memberIds : List ℤ) (idi : ℤ) : Option ℕ :=
  (goModInverse (lagrangeDenom memberIds idi) r).map fun (v : ℕ) =>
    (((lagrangeNumer memberIds idi).emod r * v).emod r).toNat

/-- The accumulation loop of `Recover` (bls.go, lines 484-516): `sigma`
starts as the G1 identity (`element_set1`), and for each index `i` the share
`signatures[i]` is decoded, raised to the Lagrange exponent
(`element_pow_mpz`) and multiplied into `sigma`; a nil-pointer panic aborts
the whole computation. -/
def recoverLoop (r : ℕ) (signatures : List (Sig r)) (memberIds : List ℤ) :
    Option (ZMod r) :=
  (List.range memberIds.length).foldl
    (fun acc i => acc.bind fun sigma =>
      (lagrangeLam r memberIds (memberIds.getD i 0)).map fun (lam : ℕ) =>
        sigma + (lam : ZMod r) * (signatures.getD i default).val)
    (some 0)

/-- `Recover` (bls.go, lines 455-530): check the list is not empty, the two
lists have equal length, `signatureLength` is positive and every share has
that length; then read the group order `r` from the pairing and run the
Lagrange accumulation loop, serializing the result. -/
def Recover (r : ℕ) (signatures : List (Sig r)) (memberIds : List ℤ)
    (system : System r) : RecOut r :=
  if signatures.length = 0 then .err .emptyList
  else if signatures.length ≠ memberIds.length then .err .listLengthMismatch
  else if system.signatureLength ≤ 0 then .err .sigLenNonPositive
  else if signatures.any (fun s => s.len ≠ system.signatureLength) then
    .err .sigLenMismatch
  else
    match recoverLoop r signatures memberIds with
    | none => .panics
    | some sigma => .ok ⟨system.signatureLength, sigma⟩

/-- The Lagrange basis coefficient at `x = 0` as stated by the
specification, for the member at position `i` of the id list:
`lambda_i = (prod over other positions j of -(id_j + 1))` times the modular
inverse of `(prod over other positions j of (id_i - id_j))`, in `ZMod r`.
(Stated from the spec text, for comparison with what `Recover` computes.) -/
def lagrangeCoeffSpec (r : ℕ) (memberIds : List ℤ) (i : ℕ) : ZMod r :=
  (∏ j ∈ (Finset.range memberIds.length).erase i,
    ((-(memberIds.getD j 0 + 1) : ℤ) : ZMod r)) *
  (∏ j ∈ (Finset.range memberIds.length).erase i,
    ((memberIds.getD i 0 - memberIds.getD j 0 : ℤ) : ZMod r))⁻¹

/-- Read `hashes[i]` at an int index (util.go indexes with Go ints): `none`
models the out-of-range panic. -/
def aget (hashes : List Digest) (i : ℤ) : Option Digest :=
  if 0 ≤ i then hashes[i.toNat]? else none

/-- The three-assignment swap of `quicksort` (util.go, lines 59-61):
`tmp = hashes[i]; hashes[i] = hashes[j]; hashes[j] = tmp`. -/
def swapF (hashes : List Digest) (i j : ℤ) : Option (List Digest) :=
  match aget hashes i, aget hashes j with
  | some a, some b => some ((hashes.set i.toNat b).set j.toNat a)
  | _, _ => none

/-- The left scan of `quicksort` (util.go, line 53):
`for hashes[i].Big().Cmp(pivot) == -1 { i++ }`, with a fuel bound; `none`
stands for an out-of-range access or exhausted fuel. -/
def iScanF : ℕ → List Digest → Digest → ℤ → Option ℤ
  | 0, _, _, _ => none
  | fuel + 1, hashes, pivot, i =>
    match aget hashes i with
    | none => none
    | some a => if a < pivot then iScanF fuel hashes pivot (i + 1) else some i

/-- The right scan of `quicksort` (util.go, line 56):
`for hashes[j].Big().Cmp(pivot) == 1 { j-- }`. -/
def jScanF : ℕ → List Digest → Digest → ℤ → Option ℤ
  | 0, _, _, _ => none
  | fuel + 1, hashes, pivot, j =>
    match aget hashes j with
    | none => none
    | some a => if pivot < a then jScanF fuel hashes pivot (j - 1) else some j

/-- The partition loop of `quicksort` (util.go, lines 52-67):
`for i <= j`, run both scans, and if still `i <= j` swap and move both
indices inward. -/
def partLoopF : ℕ → List Digest → Digest → ℤ → ℤ →
    Option (List Digest × ℤ × ℤ)
  | 0, _, _, _, _ => none
  | fuel + 1, hashes, pivot, i, j =>
    if i ≤ j then
      match iScanF fuel hashes pivot i with
      | none => none
      | some i1 =>
        match jScanF fuel hashes pivot j with
        | none => none
        | some j1 =>
          if i1 ≤ j1 then
            match swapF hashes i1 j1 with
            | none => none
            | some hashes1 => partLoopF fuel hashes1 pivot (i1 + 1) (j1 - 1)
          else some (hashes, i1, j1)
    else some (hashes, i, j)

/-- `quicksort` (util.go, lines 46-74): if `l < r`, read the pivot value at
`(l+r)/2` (both indices are non-negative on every reachable call, so Go's
truncating division and the Euclidean division used here agree), run the
partition loop from `(l, r)`, then recurse on `[l, j]` when `l < j` and on
`[i, r]` when `i < r`. -/
def quicksortF : ℕ → List Digest → ℤ → ℤ → Option (List Digest)
  | 0, _, _, _ => none
  | fuel + 1, hashes, l, r =>
    if l < r then
      match aget hashes ((l + r) / 2) with
      | none => none
      | some pivot =>
        match partLoopF fuel hashes pivot l r with
        | none => none
        | some (hashes1, i, j) =>
          match (if l < j then quicksortF fuel hashes1 l j
              else some hashes1) with
          | none => none
          | some hashes2 =>
            if i < r then quicksortF fuel hashes2 i r else some hashes2
    else some hashes

/-- Fuel sufficient for `quicksortF` on a list of length `n` (sufficiency is
proved below; any larger value gives the same result). -/
def quickFuel (n : ℕ) : ℕ := 4 * n + 16

/-- `sortHashes` (util.go, lines 41-44): `quicksort(hashes, 0, n-1)`. -/
def sortHashes (hashes : List Digest) : List Digest :=
  (quicksortF (quickFuel hashes.length) hashes 0
    ((hashes.length : ℤ) - 1)).getD hashes

/-- The adjacent-equality scan of `uniqueHashes` (util.go, lines 81-85):
`for i := 0; i < n-1; i++ { if c[i] == c[i+1] { return false } }`. -/
def adjEqScan : List Digest → Bool
  | a :: b :: rest => if a = b then false else adjEqScan (b :: rest)
  | _ => true

/-- `uniqueHashes` (util.go, lines 76-87): copy the list, sort the copy and
scan adjacent entries for equality.  (The copy is what the caller never
observes; the store-level model below makes that explicit.) -/
def uniqueHashes (hashes : List Digest) : Bool :=
  adjEqScan (sortHashes hashes)

/-- The digest stored at int index `m` (default `0`), for stating
invariants about in-range positions. -/
def gval (hashes : List Digest) (m : ℤ) : Digest :=
  hashes.getD m.toNat 0

/-- Two lists hold the same digests at every position outside `[l, r]`. -/
def agreeOutside (l r : ℤ) (h h1 : List Digest) : Prop :=
  ∀ m : ℤ, m < l ∨ r < m → aget h m = aget h1 m

/-- `AggregateVerify` (bls.go, lines 388-451): the four precondition checks,
the `uniqueHashes` check, then the pairing equation
`e(sigma, g) = prod of e(h_i, gx_i)` in exponent form. -/
def AggregateVerify (r : ℕ) (hG1 : Digest → ZMod r) (signature : Sig r)
    (hashes : List Digest) (keys : List (PublicKey r)) :
    Except BlsError Bool :=
  if hashes.length = 0 then .error .emptyList
  else if hashes.length ≠ keys.length then .error .listLengthMismatch
  else if (keys.getD 0 default).system.signatureLength ≤ 0 then
    .error .sigLenNonPositive
  else if (keys.getD 0 default).system.signatureLength ≠ signature.len then
    .error .sigLenMismatch
  else if !uniqueHashes hashes then .error .hashesNotDistinct
  else
    let lhs := signature.val * (keys.getD 0 default).system.g
    let rhs0 := hG1 (hashes.getD 0 default) * (keys.getD 0 default).gx
    let rhs := ((List.range hashes.length).drop 1).foldl
      (fun acc i => acc + hG1 (hashes.getD i default) * (keys.getD i default).gx)
      rhs0
    .ok (decide (lhs - rhs = 0))

/-- `sortHashes` acting on a slice store (a list of slices, a slice address
being its allocation index): sort the slice at `ref` in place. -/
def sortHashesS (store : List (List Digest)) (ref : ℕ) : List (List Digest) :=
  store.set ref (sortHashes (store.getD ref []))

/-- `uniqueHashes` at the slice-store level (util.go, lines 76-87):
`c := make([]common.Hash, n); copy(c, hashes)` allocates a fresh slice (at
the next address, `store.length`) holding the same digests, `sortHashes(c)`
sorts that fresh slice in place, and the adjacent scan reads it; the caller
slice at `ref` is never written. -/
def uniqueHashesS (store : List (List Digest)) (ref : ℕ) :
    Bool × List (List Digest) :=
  let c := store.getD ref []
  let store1 := store ++ [c]
  let store2 := sortHashesS store1 store.length
  (adjEqScan (store2.getD store.length []), store2)

/-- `AggregateVerify` at the slice-store level: the digests live in the
store at address `ref`; every mutation of the call goes through
`uniqueHashesS`. -/
def AggregateVerifyS (r : ℕ) (hG1 : Digest → ZMod r) (signature : Sig r)
    (store : List (List Digest)) (ref : ℕ) (keys : List (PublicKey r)) :
    Except BlsError Bool × List (List Digest) :=
  let hashes := store.getD ref []
  if hashes.length = 0 then (.error .emptyList, store)
  else if hashes.length ≠ keys.length then (.error .listLengthMismatch, store)
  else if (keys.getD 0 default).system.signatureLength ≤ 0 then
    (.error .sigLenNonPositive, store)
  else if (keys.getD 0 default).system.signatureLength ≠ signature.len then
    (.error .sigLenMismatch, store)
  else
    let u := uniqueHashesS store ref
    if !u.1 then (.error .hashesNotDistinct, u.2)
    else
      let lhs := signature.val * (keys.getD 0 default).system.g
      let rhs0 := hG1 (hashes.getD 0 default) * (keys.getD 0 default).gx
      let rhs := ((List.range hashes.length).drop 1).foldl
        (fun acc i =>
          acc + hG1 (hashes.getD i default) * (keys.getD i default).gx)
        rhs0
      (.ok (decide (lhs - rhs = 0)), u.2)

/-- Folding addition over a list from an accumulator is the accumulator plus
the sum of the mapped list. -/
theorem foldl_add_eq {α M : Type*} [AddCommMonoid M] (g : α → M) (l : List α)
    (a : M) : l.foldl (fun acc x => acc + g x) a = a + (l.map g).sum := by
  induction l generalizing a with
  | nil => simp
  | cons x xs ih => simp [ih, add_assoc]

/-- The sum of `f` mapped over `List.range n` is the `Finset.range` sum. -/
theorem sum_map_list_range {M : Type*} [AddCommMonoid M] (f : ℕ → M) (n : ℕ) :
    ((List.range n).map f).sum = ∑ j ∈ Finset.range n, f j := by
  induction n with
  | zero => simp
  | succ m ih => rw [List.range_succ, Finset.sum_range_succ, ← ih]; simp

/-- The polynomial share evaluated at `0` is the constant coefficient. -/
theorem shareSum_zero (r : ℕ) (t : ℕ) (coeff : ℕ → ZMod r) (ht : 1 ≤ t) :
    (∑ j ∈ Finset.range t, coeff j * (((0 : ℕ) ^ j : ℕ) : ZMod r)) = coeff 0 := by
  rw [Finset.sum_eq_single_of_mem 0 (Finset.mem_range.mpr ht)]
  · simp
  · intro b _ hb
    simp [Nat.zero_pow (Nat.pos_of_ne_zero hb)]

/-- C5: for valid thresholds `1 ≤ t ≤ n`, `GenKeyShares` succeeds; the private
share at evaluation point `i` is `∑ j < t, coeff j * i^j mod r` and the public
share is `g` raised to it; the pair returned first is the group pair, computed
at evaluation point `0` where the share is the constant coefficient `c_0`, and
member `k`'s pair (position `k` of the returned lists) is the one computed at
evaluation point `k + 1`. -/
theorem genKeyShares_spec (r : ℕ) (t n : ℕ) (coeff : ℕ → ZMod r)
    (system : System r) (ht : 1 ≤ t) (htn : t ≤ n) :
    ∃ gpub mpubs gsec msecs,
      GenKeyShares r t n coeff system = .ok (gpub, mpubs, gsec, msecs) ∧
      gsec = ⟨system, coeff 0⟩ ∧
      gpub = ⟨system, coeff 0 * system.g⟩ ∧
      msecs.length = n ∧ mpubs.length = n ∧
      ∀ k, k < n →
        msecs.getD k default =
          ⟨system, ∑ j ∈ Finset.range t, coeff j * (((k + 1) ^ j : ℕ) : ZMod r)⟩ ∧
        mpubs.getD k default =
          ⟨system, (∑ j ∈ Finset.range t, coeff j * (((k + 1) ^ j : ℕ) : ZMod r)) *
            system.g⟩ := by
  have hcond : ¬(t < 1 ∨ n < t) := by omega
  have hsec : ∀ i : ℕ,
      (List.range t).foldl (fun acc j => acc + coeff j * ((i ^ j : ℕ) : ZMod r)) 0 =
      ∑ j ∈ Finset.range t, coeff j * ((i ^ j : ℕ) : ZMod r) := by
    intro i
    rw [foldl_add_eq, sum_map_list_range, zero_add]
  have hrange : List.range (n + 1) = 0 :: (List.range n).map Nat.succ :=
    List.range_succ_eq_map n
  have hmain : GenKeyShares r t n coeff system = .ok
      (⟨system, coeff 0 * system.g⟩,
       (List.range n).map (fun i =>
         (⟨system, (∑ j ∈ Finset.range t,
            coeff j * (((i + 1) ^ j : ℕ) : ZMod r)) * system.g⟩ : PublicKey r)),
       ⟨system, coeff 0⟩,
       (List.range n).map (fun i =>
         (⟨system, ∑ j ∈ Finset.range t,
            coeff j * (((i + 1) ^ j : ℕ) : ZMod r)⟩ : PrivateKey r))) := by
    rw [GenKeyShares, if_neg hcond]
    simp only [hrange, List.map_cons, List.headI, List.tail_cons, List.map_map,
      Function.comp_def, hsec, shareSum_zero r t coeff ht, Nat.succ_eq_add_one]
  refine ⟨_, _, _, _, hmain, rfl, rfl, by simp, by simp, ?_⟩
  intro k hk
  constructor
  · rw [List.getD_eq_getElem _ _ (by simp [hk])]
    simp
  · rw [List.getD_eq_getElem _ _ (by simp [hk])]
    simp

/-- Witness for C5 at `t = 2`, `n = 3`, concrete coefficients over `ZMod 5`. -/
theorem genKeyShares_spec_witness :
    1 ≤ 2 ∧ 2 ≤ 3 ∧
    ∃ gpub mpubs gsec msecs,
      GenKeyShares 5 2 3 (fun j => (j + 1 : ZMod 5)) ⟨2, 1⟩ =
        .ok (gpub, mpubs, gsec, msecs) ∧
      gsec = ⟨⟨2, 1⟩, (fun j => (j + 1 : ZMod 5)) 0⟩ ∧
      gpub = ⟨⟨2, 1⟩, (fun j => (j + 1 : ZMod 5)) 0 * (2 : ZMod 5)⟩ ∧
      msecs.length = 3 ∧ mpubs.length = 3 ∧
      ∀ k, k < 3 →
        msecs.getD k default =
          ⟨⟨2, 1⟩, ∑ j ∈ Finset.range 2,
            (fun j => (j + 1 : ZMod 5)) j * (((k + 1) ^ j : ℕ) : ZMod 5)⟩ ∧
        mpubs.getD k default =
          ⟨⟨2, 1⟩, (∑ j ∈ Finset.range 2,
            (fun j => (j + 1 : ZMod 5)) j * (((k + 1) ^ j : ℕ) : ZMod 5)) *
            (2 : ZMod 5)⟩ :=
  ⟨le_refl 1 |>.trans (by omega), by omega,
    genKeyShares_spec 5 2 3 (fun j => (j + 1 : ZMod 5)) ⟨2, 1⟩ (by omega) (by omega)⟩

/-- Under the preconditions of `Aggregate` the result is the serialized sum
of the decoded signatures. -/
theorem aggregate_ok (r : ℕ) (system : System r) (sigs : List (Sig r))
    (hne : sigs ≠ []) (hpos : 0 < system.signatureLength)
    (hlen : ∀ s ∈ sigs, s.len = system.signatureLength) :
    Aggregate r sigs system = .ok ⟨system.signatureLength,
      (sigs.map (fun s => s.val)).sum⟩ := by
  match sigs, hne with
  | s0 :: rest, _ =>
    rw [Aggregate]
    have hany : ((s0 :: rest).any fun s =>
        decide ¬s.len = system.signatureLength) = false := by
      simp only [List.any_eq_false, decide_not, Bool.not_eq_true', decide_eq_false_iff_not,
        not_not]
      intro s hs
      exact hlen s hs
    simp only [not_le.mpr hpos, if_false, hany, Bool.false_eq_true, if_false]
    rw [foldl_add_eq]
    simp

/-- C7: aggregating a permutation of a non-empty list of signatures, all of
the system's (positive) signature length, returns the same signature bytes as
aggregating the original list. -/
theorem aggregate_perm_invariant (r : ℕ) (system : System r)
    (sigs sigs' : List (Sig r)) (hne : sigs ≠ [])
    (hpos : 0 < system.signatureLength)
    (hlen : ∀ s ∈ sigs, s.len = system.signatureLength)
    (hperm : sigs.Perm sigs') :
    ∃ out, Aggregate r sigs system = .ok out ∧
      Aggregate r sigs' system = .ok out := by
  have hne' : sigs' ≠ [] := by
    intro h
    exact hne (List.Perm.eq_nil (h ▸ hperm))
  have hlen' : ∀ s ∈ sigs', s.len = system.signatureLength := fun s hs =>
    hlen s (hperm.mem_iff.mpr hs)
  refine ⟨⟨system.signatureLength, (sigs.map (fun s => s.val)).sum⟩,
    aggregate_ok r system sigs hne hpos hlen, ?_⟩
  rw [aggregate_ok r system sigs' hne' hpos hlen']
  have : (sigs'.map (fun s => s.val)).sum = (sigs.map (fun s => s.val)).sum :=
    (hperm.map (fun s => s.val)).sum_eq.symm
  rw [this]

/-- Witness for C7: two permuted two-element signature lists. -/
theorem aggregate_perm_invariant_witness :
    ∃ out, Aggregate 7 [⟨1, 2⟩, ⟨1, 3⟩] ⟨4, 1⟩ = .ok out ∧
      Aggregate 7 [⟨1, 3⟩, ⟨1, 2⟩] ⟨4, 1⟩ = .ok out :=
  aggregate_perm_invariant 7 ⟨4, 1⟩ [⟨1, 2⟩, ⟨1, 3⟩] [⟨1, 3⟩, ⟨1, 2⟩]
    (by decide) (by decide) (by decide) (List.Perm.swap _ _ _)

/-- Folding a conditional multiplication is multiplication by the product of
the conditionally mapped list. -/
theorem foldl_ite_mul {α M : Type*} [Monoid M] (P : α → Prop) [DecidablePred P]
    (g : α → M) (l : List α) (a : M) :
    l.foldl (fun acc x => if P x then acc * g x else acc) a =
      a * (l.map fun x => if P x then g x else 1).prod := by
  induction l generalizing a with
  | nil => simp
  | cons x xs ih => by_cases h : P x <;> simp [h, ih, mul_assoc]

/-- The product of a mapped list as a product over positions. -/
theorem prod_map_eq_prod_range {α M : Type*} [CommMonoid M] (l : List α)
    (f : α → M) (d : α) :
    (l.map f).prod = ∏ j ∈ Finset.range l.length, f (l.getD j d) := by
  induction l with
  | nil => simp
  | cons x xs ih =>
    rw [List.map_cons, List.prod_cons, List.length_cons, Finset.prod_range_succ']
    simp only [List.getD_cons_succ, List.getD_cons_zero]
    rw [← ih, mul_comm]

/-- The conditional product of `Recover`, which skips exactly the positions
holding the same member id as position `i`, is the product over the other
positions when the ids are pairwise distinct. -/
theorem foldl_skip_prod (ids : List ℤ) (i : ℕ) (hi : i < ids.length)
    (hdist : ∀ j1, j1 < ids.length → ∀ j2, j2 < ids.length → j1 ≠ j2 →
      ids.getD j1 0 ≠ ids.getD j2 0) (g : ℤ → ℤ) :
    ids.foldl (fun a idj => if ids.getD i 0 ≠ idj then a * g idj else a) 1 =
      ∏ j ∈ (Finset.range ids.length).erase i, g (ids.getD j 0) := by
  rw [foldl_ite_mul (fun idj => ids.getD i 0 ≠ idj) g ids 1, one_mul,
    prod_map_eq_prod_range ids _ 0,
    ← Finset.prod_erase (Finset.range ids.length)
      (f := fun j => if ids.getD i 0 ≠ ids.getD j 0 then g (ids.getD j 0) else 1)
      (a := i) (by simp)]
  apply Finset.prod_congr rfl
  intro j hj
  obtain ⟨hji, hjr⟩ := Finset.mem_erase.mp hj
  rw [if_pos]
  exact Ne.symm (hdist j (Finset.mem_range.mp hjr) i hi hji)

/-- Casting a Euclidean remainder mod `r` into `ZMod r` is casting the
dividend. -/
theorem intCast_emod (r : ℕ) (a : ℤ) :
    ((a.emod (r : ℤ) : ℤ) : ZMod r) = (a : ZMod r) := by
  rw [ZMod.intCast_eq_intCast_iff']
  exact Int.emod_emod_of_dvd a dvd_rfl

/-- Casting the `toNat` of a Euclidean remainder mod a positive `r` into
`ZMod r` is casting the dividend. -/
theorem intCast_emod_toNat (r : ℕ) (hr : 0 < r) (a : ℤ) :
    (((a.emod (r : ℤ)).toNat : ℕ) : ZMod r) = (a : ZMod r) := by
  have hne : (r : ℤ) ≠ 0 := by exact_mod_cast hr.ne'
  have hnn : 0 ≤ a.emod (r : ℤ) := Int.emod_nonneg a hne
  have h1 : (((a.emod (r : ℤ)).toNat : ℕ) : ZMod r) =
      ((((a.emod (r : ℤ)).toNat : ℕ) : ℤ) : ZMod r) := by push_cast; ring
  rw [h1, Int.toNat_of_nonneg hnn, intCast_emod]

/-- What a successful `goModInverse` returns: a value below `r` whose
product with `q` is `1` mod `r`. -/
theorem goModInverse_spec {q : ℤ} {r v : ℕ} (h : goModInverse q r = some v) :
    v < r ∧ (q * v).emod r = 1 % (r : ℤ) := by
  constructor
  · have := List.mem_of_find?_eq_some h
    simpa using this
  · have := List.find?_some h
    simpa using this

/-- For prime `r`, `goModInverse` succeeds on any `q` that is nonzero mod
`r`, and the value it returns casts to the inverse of `q` in `ZMod r`. -/
theorem goModInverse_eq_some_of_ne_zero (r : ℕ) [Fact (Nat.Prime r)] (q : ℤ)
    (hq : (q : ZMod r) ≠ 0) :
    ∃ v, goModInverse q r = some v ∧ ((v : ℕ) : ZMod r) = (q : ZMod r)⁻¹ := by
  haveI : NeZero r := ⟨(Fact.out : Nat.Prime r).pos.ne'⟩
  have hucast : ((((q : ZMod r)⁻¹).val : ℕ) : ZMod r) = (q : ZMod r)⁻¹ := by
    rw [ZMod.natCast_val, ZMod.cast_id]
  have hqu : (q : ZMod r) * ((((q : ZMod r)⁻¹).val : ℕ) : ZMod r) = 1 := by
    rw [hucast]
    exact mul_inv_cancel₀ hq
  have hpred : (q * (((q : ZMod r)⁻¹).val : ℕ)).emod r = 1 % (r : ℤ) := by
    apply (ZMod.intCast_eq_intCast_iff' _ _ _).mp
    push_cast
    exact hqu
  have hsome : (goModInverse q r).isSome := by
    rw [goModInverse, List.find?_isSome]
    refine ⟨((q : ZMod r)⁻¹).val, List.mem_range.mpr (ZMod.val_lt _), ?_⟩
    simpa using hpred
  obtain ⟨v, hv⟩ := Option.isSome_iff_exists.mp hsome
  refine ⟨v, hv, ?_⟩
  obtain ⟨_, hvpred⟩ := goModInverse_spec hv
  have hcast : (q : ZMod r) * ((v : ℕ) : ZMod r) = 1 := by
    have h2 := (ZMod.intCast_eq_intCast_iff' (q * v) 1 r).mpr hvpred
    push_cast at h2
    exact h2
  exact (inv_eq_of_mul_eq_one_right hcast).symm

/-- `goModInverse` fails (models `ModInverse` returning `nil`) whenever `q`
is zero mod `r`, for any modulus greater than one. -/
theorem goModInverse_eq_none (r : ℕ) (hr : 1 < r) (q : ℤ)
    (hq : (q : ZMod r) = 0) : goModInverse q r = none := by
  haveI : Fact (1 < r) := ⟨hr⟩
  rw [goModInverse, List.find?_eq_none]
  intro x _
  simp only [decide_eq_true_eq]
  intro hpred
  have hcast : ((q * x : ℤ) : ZMod r) = ((1 : ℤ) : ZMod r) :=
    (ZMod.intCast_eq_intCast_iff' _ _ _).mpr (by simpa using hpred)
  push_cast at hcast
  rw [hq, zero_mul] at hcast
  exact zero_ne_one hcast

/-- Evaluating the option-valued accumulation when every step succeeds. -/
theorem foldl_bind_map_add {M : Type*} [AddCommMonoid M] (A : ℕ → Option ℕ)
    (B : ℕ → ℕ → M) (lam : ℕ → ℕ) (l : List ℕ)
    (hl : ∀ i ∈ l, A i = some (lam i)) (s : M) :
    l.foldl (fun acc i => acc.bind fun m => (A i).map fun v => m + B i v)
      (some s) = some (s + (l.map fun i => B i (lam i)).sum) := by
  induction l generalizing s with
  | nil => simp
  | cons x xs ih =>
    rw [List.foldl_cons]
    have hx := hl x (List.mem_cons_self x xs)
    have hstep : ((some s).bind fun m => (A x).map fun v => m + B x v) =
        some (s + B x (lam x)) := by
      simp [hx]
    rw [hstep, ih (fun i hi => hl i (List.mem_cons_of_mem x hi)) (s + B x (lam x)),
      List.map_cons, List.sum_cons, add_assoc]

/-- The accumulation loop of `Recover` when every Lagrange exponent is
computed successfully: the result is the sum (in exponent form, the G1
product) of the decoded shares scaled by their exponents. -/
theorem recoverLoop_eq_sum (r : ℕ) (sigs : List (Sig r)) (ids : List ℤ)
    (lam : ℕ → ℕ)
    (h : ∀ i, i < ids.length →
      lagrangeLam r ids (ids.getD i 0) = some (lam i)) :
    recoverLoop r sigs ids = some (∑ i ∈ Finset.range ids.length,
      (lam i : ZMod r) * (sigs.getD i default).val) := by
  rw [recoverLoop,
    foldl_bind_map_add (fun i => lagrangeLam r ids (ids.getD i 0))
      (fun i v => (v : ZMod r) * (sigs.getD i default).val) lam
      (List.range ids.length) (fun i hi => h i (List.mem_range.mp hi)) 0,
    zero_add, sum_map_list_range]

/-- For prime `r` and position-wise mod-`r`-distinct member ids, the Lagrange
exponent computed by `Recover` at position `i` exists and casts to the
specification coefficient. -/
theorem lagrangeLam_eq_coeffSpec (r : ℕ) [Fact (Nat.Prime r)] (ids : List ℤ)
    (i : ℕ) (hi : i < ids.length)
    (hdist : ∀ j1, j1 < ids.length → ∀ j2, j2 < ids.length → j1 ≠ j2 →
      ((ids.getD j1 0 : ℤ) : ZMod r) ≠ ((ids.getD j2 0 : ℤ) : ZMod r)) :
    ∃ v, lagrangeLam r ids (ids.getD i 0) = some v ∧
      ((v : ℕ) : ZMod r) = lagrangeCoeffSpec r ids i := by
  have rpos : 0 < r := (Fact.out : Nat.Prime r).pos
  have hdistZ : ∀ j1, j1 < ids.length → ∀ j2, j2 < ids.length → j1 ≠ j2 →
      ids.getD j1 0 ≠ ids.getD j2 0 := by
    intro j1 h1 j2 h2 hne heq
    exact hdist j1 h1 j2 h2 hne (by rw [heq])
  have hqprod : ((lagrangeDenom ids (ids.getD i 0) : ℤ) : ZMod r) =
      ∏ j ∈ (Finset.range ids.length).erase i,
        ((ids.getD i 0 - ids.getD j 0 : ℤ) : ZMod r) := by
    rw [lagrangeDenom, foldl_skip_prod ids i hi hdistZ
      (fun idj => (ids.getD i 0 + 1) - (idj + 1))]
    push_cast
    apply Finset.prod_congr rfl
    intro j _
    ring
  have hpprod : ((lagrangeNumer ids (ids.getD i 0) : ℤ) : ZMod r) =
      ∏ j ∈ (Finset.range ids.length).erase i,
        ((-(ids.getD j 0 + 1) : ℤ) : ZMod r) := by
    rw [lagrangeNumer, foldl_skip_prod ids i hi hdistZ (fun idj => -(idj + 1))]
    push_cast
    ring
  have hqne : ((lagrangeDenom ids (ids.getD i 0) : ℤ) : ZMod r) ≠ 0 := by
    rw [hqprod]
    apply Finset.prod_ne_zero_iff.mpr
    intro j hj
    obtain ⟨hji, hjr⟩ := Finset.mem_erase.mp hj
    push_cast
    apply sub_ne_zero_of_ne
    exact hdist i hi j (Finset.mem_range.mp hjr) (Ne.symm hji)
  obtain ⟨v, hvs, hvinv⟩ :=
    goModInverse_eq_some_of_ne_zero r (lagrangeDenom ids (ids.getD i 0)) hqne
  refine ⟨(((lagrangeNumer ids (ids.getD i 0)).emod r * v).emod r).toNat,
    ?_, ?_⟩
  · rw [lagrangeLam, hvs, Option.map_some']
  · rw [intCast_emod_toNat r rpos]
    push_cast
    rw [intCast_emod, lagrangeCoeffSpec, hvinv, hqprod, ← hpprod]

/-- C4: for a non-empty list of shares of the declared positive signature
length, an id list of equal length whose entries are pairwise distinct mod
the prime group order, `Recover` returns the compressed encoding of the
product of the decoded shares raised to the Lagrange coefficients
`lambda_i = (prod over j of -(id_j+1)) * (prod over j of (id_i-id_j))⁻¹ mod r`
over the 1-indexed evaluation points. -/
theorem recover_computes_lagrange (r : ℕ) [Fact (Nat.Prime r)]
    (sigs : List (Sig r)) (ids : List ℤ) (system : System r)
    (hne : sigs ≠ []) (hlen : sigs.length = ids.length)
    (hpos : 0 < system.signatureLength)
    (hsl : ∀ s ∈ sigs, s.len = system.signatureLength)
    (hdist : ∀ j1, j1 < ids.length → ∀ j2, j2 < ids.length → j1 ≠ j2 →
      ((ids.getD j1 0 : ℤ) : ZMod r) ≠ ((ids.getD j2 0 : ℤ) : ZMod r)) :
    Recover r sigs ids system = .ok ⟨system.signatureLength,
      ∑ i ∈ Finset.range ids.length,
        lagrangeCoeffSpec r ids i * (sigs.getD i default).val⟩ := by
  have h0 : ¬(sigs.length = 0) := by
    simpa [List.length_eq_zero] using hne
  have hany : (sigs.any fun s =>
      decide ¬s.len = system.signatureLength) = false := by
    simp only [List.any_eq_false, decide_not, Bool.not_eq_true',
      decide_eq_false_iff_not, not_not]
    intro s hs
    exact hsl s hs
  rw [Recover, if_neg h0, if_neg (not_not.mpr hlen), if_neg (not_le.mpr hpos)]
  rw [if_neg (by rw [hany]; exact Bool.false_ne_true)]
  have hlam : ∀ i, i < ids.length → lagrangeLam r ids (ids.getD i 0) =
      some ((lagrangeLam r ids (ids.getD i 0)).getD 0) := by
    intro i hi
    obtain ⟨v, hv, _⟩ := lagrangeLam_eq_coeffSpec r ids i hi hdist
    rw [hv]
    rfl
  have hsum : (∑ i ∈ Finset.range ids.length,
      (((lagrangeLam r ids (ids.getD i 0)).getD 0 : ℕ) : ZMod r) *
        (sigs.getD i default).val) =
      ∑ i ∈ Finset.range ids.length,
        lagrangeCoeffSpec r ids i * (sigs.getD i default).val := by
    apply Finset.sum_congr rfl
    intro i hi
    obtain ⟨v, hv, hcast⟩ :=
      lagrangeLam_eq_coeffSpec r ids i (Finset.mem_range.mp hi) hdist
    rw [hv]
    simp only [Option.getD_some]
    rw [hcast]
  rw [recoverLoop_eq_sum r sigs ids _ hlam, hsum]

/-- Witness for C4 at `r = 5`, ids `[0, 1]`, two concrete shares. -/
theorem recover_computes_lagrange_witness :
    ([⟨1, 1⟩, ⟨1, 2⟩] : List (Sig 5)) ≠ [] ∧
    (0 : ℤ) < 1 ∧
    Recover 5 [⟨1, 1⟩, ⟨1, 2⟩] [0, 1] ⟨3, 1⟩ = .ok ⟨1,
      ∑ i ∈ Finset.range ([0, 1] : List ℤ).length,
        lagrangeCoeffSpec 5 [0, 1] i *
          (([⟨1, 1⟩, ⟨1, 2⟩] : List (Sig 5)).getD i default).val⟩ := by
  have h1 : ([⟨1, 1⟩, ⟨1, 2⟩] : List (Sig 5)) ≠ [] := by decide
  have h2 : ([⟨1, 1⟩, ⟨1, 2⟩] : List (Sig 5)).length =
      ([0, 1] : List ℤ).length := by decide
  have h3 : (0 : ℤ) < (⟨3, 1⟩ : System 5).signatureLength := by decide
  have h4 : ∀ s ∈ ([⟨1, 1⟩, ⟨1, 2⟩] : List (Sig 5)),
      s.len = (⟨3, 1⟩ : System 5).signatureLength := by decide
  have h5 : ∀ j1, j1 < ([0, 1] : List ℤ).length →
      ∀ j2, j2 < ([0, 1] : List ℤ).length → j1 ≠ j2 →
      ((([0, 1] : List ℤ).getD j1 0 : ℤ) : ZMod 5) ≠
        ((([0, 1] : List ℤ).getD j2 0 : ℤ) : ZMod 5) := by decide
  have h0 : (0 : ℤ) < 1 := by decide
  haveI : Fact (Nat.Prime 5) := ⟨by norm_num⟩
  exact ⟨h1, h0, recover_computes_lagrange 5 _ _ _ h1 h2 h3 h4 h5⟩

/-- The option-valued accumulation started from `none` stays `none`. -/
theorem foldl_bind_none {M : Type*} [AddCommMonoid M] (A : ℕ → Option ℕ)
    (B : ℕ → ℕ → M) (l : List ℕ) :
    l.foldl (fun acc i => acc.bind fun m => (A i).map fun v => m + B i v)
      (none : Option M) = none := by
  induction l with
  | nil => rfl
  | cons x xs ih => simpa using ih

/-- The option-valued accumulation fails as soon as one step fails. -/
theorem foldl_bind_map_none {M : Type*} [AddCommMonoid M] (A : ℕ → Option ℕ)
    (B : ℕ → ℕ → M) (l : List ℕ) (i : ℕ) (hi : i ∈ l) (hA : A i = none)
    (s : M) :
    l.foldl (fun acc i => acc.bind fun m => (A i).map fun v => m + B i v)
      (some s) = none := by
  induction l generalizing s with
  | nil => cases hi
  | cons x xs ih =>
    rw [List.foldl_cons]
    rcases List.mem_cons.mp hi with hx | hx
    · subst hx
      rw [hA]
      exact foldl_bind_none A B xs
    · cases hAx : A x with
      | none => exact foldl_bind_none A B xs
      | some w => exact ih hx (s + B x w)

/-- C6 (amended): when the four precondition checks of `Recover` pass but
some Lagrange denominator product has no inverse mod `r`
(`big.Int.ModInverse` returns `nil`), `Recover` panics on the nil pointer
instead of returning a signature or an error. -/
theorem recover_noninvertible_panics (r : ℕ) (sigs : List (Sig r))
    (ids : List ℤ) (system : System r)
    (hne : sigs ≠ []) (hlen : sigs.length = ids.length)
    (hpos : 0 < system.signatureLength)
    (hsl : ∀ s ∈ sigs, s.len = system.signatureLength)
    (hbad : ∃ i, i < ids.length ∧
      goModInverse (lagrangeDenom ids (ids.getD i 0)) r = none) :
    Recover r sigs ids system = .panics := by
  have h0 : ¬(sigs.length = 0) := by
    simpa [List.length_eq_zero] using hne
  have hany : (sigs.any fun s =>
      decide ¬s.len = system.signatureLength) = false := by
    simp only [List.any_eq_false, decide_not, Bool.not_eq_true',
      decide_eq_false_iff_not, not_not]
    intro s hs
    exact hsl s hs
  rw [Recover, if_neg h0, if_neg (not_not.mpr hlen), if_neg (not_le.mpr hpos)]
  rw [if_neg (by rw [hany]; exact Bool.false_ne_true)]
  obtain ⟨i, hi, hinv⟩ := hbad
  have hlamnone : lagrangeLam r ids (ids.getD i 0) = none := by
    rw [lagrangeLam, hinv]
    rfl
  have hloop : recoverLoop r sigs ids = none := by
    rw [recoverLoop]
    exact foldl_bind_map_none (fun i => lagrangeLam r ids (ids.getD i 0))
      (fun i v => (v : ZMod r) * (sigs.getD i default).val)
      (List.range ids.length) i (List.mem_range.mpr hi) hlamnone 0
  rw [hloop]

/-- C6 counterexample: with group order `5` and member ids `[0, 5]` (distinct
as integers but whose 1-indexed evaluation points differ by a multiple of
the group order, making the denominator product non-invertible), `Recover`
panics; it does not return an error value of any kind, so in particular it
does not fail with a MathError. -/
theorem recover_noninvertible_counterexample :
    goModInverse (lagrangeDenom [0, 5]
      (([0, 5] : List ℤ).getD 0 0)) 5 = none ∧
    Recover 5 [⟨1, 1⟩, ⟨1, 1⟩] [0, 5] ⟨0, 1⟩ = RecOut.panics := by
  decide

/-- Witness for the amended C6 at the concrete input of the counterexample's
shape (group order `5`, ids `[3, 8]`). -/
theorem recover_noninvertible_panics_witness :
    Recover 5 [⟨1, 2⟩, ⟨1, 3⟩] [3, 8] ⟨0, 1⟩ = RecOut.panics :=
  recover_noninvertible_panics 5 [⟨1, 2⟩, ⟨1, 3⟩] [3, 8] ⟨0, 1⟩
    (by decide) (by decide) (by decide) (by decide)
    ⟨0, by decide, by decide⟩

/-- Lagrange interpolation at zero, in the shape computed by `Recover`: for
a polynomial of degree below the number of nodes and nodes injective on the
index range, the sum over the nodes of the value times
`(prod of (0 - v j)) * (prod of (v i - v j))⁻¹` is the value at zero. -/
theorem interpolate_eval_zero (r : ℕ) [Fact (Nat.Prime r)] (n : ℕ)
    (v : ℕ → ZMod r) (f : Polynomial (ZMod r)) (hdeg : f.degree < n)
    (hvs : Set.InjOn v (Finset.range n)) :
    ∑ i ∈ Finset.range n,
      (∏ j ∈ (Finset.range n).erase i, ((0 : ZMod r) - v j)) *
        (∏ j ∈ (Finset.range n).erase i, (v i - v j))⁻¹ * f.eval (v i) =
      f.eval 0 := by
  have hdeg' : f.degree < (Finset.range n).card := by simpa using hdeg
  have hinterp := Lagrange.eq_interpolate hvs hdeg'
  have h0 : f.eval 0 = Polynomial.eval 0
      (Lagrange.interpolate (Finset.range n) v fun i => f.eval (v i)) := by
    conv_lhs => rw [hinterp]
  rw [h0, Lagrange.interpolate_apply, Polynomial.eval_finset_sum]
  apply Finset.sum_congr rfl
  intro i _
  rw [Polynomial.eval_mul, Polynomial.eval_C, Lagrange.basis,
    Polynomial.eval_prod]
  have hfactor : ∀ j ∈ (Finset.range n).erase i,
      Polynomial.eval 0 (Lagrange.basisDivisor (v i) (v j)) =
        (v i - v j)⁻¹ * ((0 : ZMod r) - v j) := by
    intro j _
    rw [Lagrange.basisDivisor]
    simp [Polynomial.eval_mul, Polynomial.eval_C, Polynomial.eval_sub,
      Polynomial.eval_X]
  rw [Finset.prod_congr rfl hfactor, Finset.prod_mul_distrib,
    Finset.prod_inv_distrib]
  ring

/-- The specification coefficient written in terms of the 1-indexed node
values `id + 1` cast into `ZMod r`. -/
theorem lagrangeCoeffSpec_eq_nodes (r : ℕ) (ids : List ℤ) (i : ℕ) :
    lagrangeCoeffSpec r ids i =
      (∏ j ∈ (Finset.range ids.length).erase i,
        ((0 : ZMod r) - ((ids.getD j 0 + 1 : ℤ) : ZMod r))) *
      (∏ j ∈ (Finset.range ids.length).erase i,
        (((ids.getD i 0 + 1 : ℤ) : ZMod r) -
          ((ids.getD j 0 + 1 : ℤ) : ZMod r)))⁻¹ := by
  rw [lagrangeCoeffSpec]
  congr 1
  · apply Finset.prod_congr rfl
    intro j _
    push_cast
    ring
  · congr 1
    apply Finset.prod_congr rfl
    intro j _
    push_cast
    ring

/-- Lagrange interpolation at zero through the specification coefficients of
`Recover`, over the 1-indexed nodes `id + 1`. -/
theorem sum_lagrangeCoeffSpec_eval (r : ℕ) [Fact (Nat.Prime r)]
    (ids : List ℤ) (f : Polynomial (ZMod r)) (hdeg : f.degree < ids.length)
    (hinj : ∀ j1, j1 < ids.length → ∀ j2, j2 < ids.length → j1 ≠ j2 →
      ((ids.getD j1 0 : ℤ) : ZMod r) ≠ ((ids.getD j2 0 : ℤ) : ZMod r)) :
    ∑ i ∈ Finset.range ids.length,
      lagrangeCoeffSpec r ids i *
        f.eval (((ids.getD i 0 + 1 : ℤ) : ZMod r)) = f.eval 0 := by
  have hvs : Set.InjOn (fun j => ((ids.getD j 0 + 1 : ℤ) : ZMod r))
      (Finset.range ids.length) := by
    intro a ha b hb hab
    by_contra hne
    apply hinj a (Finset.mem_range.mp (Finset.mem_coe.mp ha))
      b (Finset.mem_range.mp (Finset.mem_coe.mp hb)) hne
    have hab' : ((ids.getD a 0 : ℤ) : ZMod r) + 1 =
        ((ids.getD b 0 : ℤ) : ZMod r) + 1 := by
      have h1 := hab
      simp only at h1
      push_cast at h1
      exact h1
    exact add_right_cancel hab'
  have h := interpolate_eval_zero r ids.length
    (fun j => ((ids.getD j 0 + 1 : ℤ) : ZMod r)) f hdeg hvs
  simp only at h
  rw [← h]
  apply Finset.sum_congr rfl
  intro i _
  rw [lagrangeCoeffSpec_eq_nodes]

/-- The share polynomial evaluates to the share sum. -/
theorem sharePoly_eval (r : ℕ) (t : ℕ) (c : ℕ → ZMod r) (x : ZMod r) :
    (∑ j ∈ Finset.range t,
      Polynomial.C (c j) * Polynomial.X ^ j).eval x =
      ∑ j ∈ Finset.range t, c j * x ^ j := by
  rw [Polynomial.eval_finset_sum]
  apply Finset.sum_congr rfl
  intro j _
  simp

/-- The share polynomial has degree below the number of coefficients. -/
theorem sharePoly_degree_lt (r : ℕ) (t : ℕ) (c : ℕ → ZMod r) (ht : 1 ≤ t) :
    (∑ j ∈ Finset.range t,
      Polynomial.C (c j) * Polynomial.X ^ j :
        Polynomial (ZMod r)).degree < (t : ℕ) := by
  apply lt_of_le_of_lt (Polynomial.degree_sum_le _ _)
  rw [Finset.sup_lt_iff (by exact_mod_cast WithBot.bot_lt_coe t)]
  intro j hj
  apply lt_of_le_of_lt (Polynomial.degree_C_mul_X_pow_le j (c j))
  exact_mod_cast Finset.mem_range.mp hj

/-- The share polynomial evaluates to the constant coefficient at zero. -/
theorem sharePoly_eval_zero (r : ℕ) (t : ℕ) (c : ℕ → ZMod r) (ht : 1 ≤ t) :
    (∑ j ∈ Finset.range t,
      Polynomial.C (c j) * Polynomial.X ^ j).eval (0 : ZMod r) = c 0 := by
  rw [sharePoly_eval, Finset.sum_eq_single_of_mem 0 (Finset.mem_range.mpr ht)]
  · simp
  · intro b _ hb
    simp [zero_pow hb]

/-- Components of a successful `GenKeyShares` call: the group public key and
the member secrets, read off against the returned tuple. -/
theorem genKeyShares_components (r : ℕ) (t n : ℕ) (c : ℕ → ZMod r)
    (system : System r) (ht : 1 ≤ t) (htn : t ≤ n)
    (gpub : PublicKey r) (mpubs : List (PublicKey r)) (gsec : PrivateKey r)
    (msecs : List (PrivateKey r))
    (hgen : GenKeyShares r t n c system = .ok (gpub, mpubs, gsec, msecs)) :
    gpub = ⟨system, c 0 * system.g⟩ ∧ msecs.length = n ∧
      ∀ k, k < n → msecs.getD k default =
        ⟨system, ∑ j ∈ Finset.range t, c j * (((k + 1) ^ j : ℕ) : ZMod r)⟩ := by
  obtain ⟨gpub', mpubs', gsec', msecs', hmain, _, hgpub', hmlen', _, hmem'⟩ :=
    genKeyShares_spec r t n c system ht htn
  have htup := hgen.symm.trans hmain
  simp only [Except.ok.injEq, Prod.mk.injEq] at htup
  obtain ⟨hg, _, _, hms⟩ := htup
  subst hg
  subst hms
  exact ⟨hgpub', hmlen', fun k hk => (hmem' k hk).1⟩

/-- Casting is injective on integers in `[0, r)`. -/
theorem intCast_zmod_inj_of_lt (r : ℕ) (a b : ℤ) (ha0 : 0 ≤ a)
    (har : a < r) (hb0 : 0 ≤ b) (hbr : b < r)
    (h : (a : ZMod r) = (b : ZMod r)) : a = b := by
  have h' := (ZMod.intCast_eq_intCast_iff' a b r).mp h
  rwa [Int.emod_eq_of_lt ha0 har, Int.emod_eq_of_lt hb0 hbr] at h'

/-- Recovering from signature shares produced by `Sign` under the member
secrets of `GenKeyShares`, over any list of distinct in-range member ids,
yields the serialized group signature `h^(c 0)`. -/
theorem recover_shares (r : ℕ) [Fact (Nat.Prime r)] (hG1 : Digest → ZMod r)
    (t n : ℕ) (c : ℕ → ZMod r) (system : System r) (d : Digest)
    (ht : 1 ≤ t) (htn : t ≤ n) (hnr : (n : ℤ) < (r : ℤ))
    (hpos : 0 < system.signatureLength)
    (gpub : PublicKey r) (mpubs : List (PublicKey r)) (gsec : PrivateKey r)
    (msecs : List (PrivateKey r))
    (hgen : GenKeyShares r t n c system = .ok (gpub, mpubs, gsec, msecs))
    (ids : List ℤ) (hlent : ids.length = t) (hnodup : ids.Nodup)
    (hbound : ∀ id ∈ ids, 0 ≤ id ∧ id < (n : ℤ))
    (shares : List (Sig r)) (hslen : shares.length = ids.length)
    (hsig : ∀ i, i < ids.length →
      Sign r hG1 d (msecs.getD (ids.getD i 0).toNat default) =
        .ok (shares.getD i default)) :
    Recover r shares ids system =
      .ok ⟨system.signatureLength, c 0 * hG1 d⟩ := by
  obtain ⟨hgpub, hmlen, hmsec⟩ :=
    genKeyShares_components r t n c system ht htn gpub mpubs gsec msecs hgen
  have hmemD : ∀ i, i < ids.length → ids.getD i 0 ∈ ids := by
    intro i hi
    rw [List.getD_eq_getElem ids 0 hi]
    exact List.getElem_mem hi
  have hboundD : ∀ i, i < ids.length →
      0 ≤ ids.getD i 0 ∧ ids.getD i 0 < (n : ℤ) := by
    intro i hi
    exact hbound _ (hmemD i hi)
  have hdist : ∀ j1, j1 < ids.length → ∀ j2, j2 < ids.length → j1 ≠ j2 →
      ((ids.getD j1 0 : ℤ) : ZMod r) ≠ ((ids.getD j2 0 : ℤ) : ZMod r) := by
    intro j1 h1 j2 h2 hne heq
    have hint : ids.getD j1 0 ≠ ids.getD j2 0 := by
      rw [List.getD_eq_getElem ids 0 h1, List.getD_eq_getElem ids 0 h2]
      intro hcontr
      exact hne (List.Nodup.getElem_inj_iff hnodup |>.mp hcontr)
    apply hint
    exact intCast_zmod_inj_of_lt r _ _ (hboundD j1 h1).1
      (lt_trans (hboundD j1 h1).2 hnr) (hboundD j2 h2).1
      (lt_trans (hboundD j2 h2).2 hnr) heq
  have htoNat : ∀ i, i < ids.length →
      (((ids.getD i 0).toNat : ℤ)) = ids.getD i 0 := by
    intro i hi
    exact Int.toNat_of_nonneg (hboundD i hi).1
  -- the value stored in each share
  have hshare : ∀ i, i < ids.length → shares.getD i default =
      ⟨system.signatureLength,
        (∑ j ∈ Finset.range t,
          c j * ((((ids.getD i 0).toNat + 1) ^ j : ℕ) : ZMod r)) * hG1 d⟩ := by
    intro i hi
    have hklt : (ids.getD i 0).toNat < n := by
      have := (hboundD i hi).2
      omega
    have hsec := hmsec (ids.getD i 0).toNat hklt
    have := hsig i hi
    rw [hsec] at this
    rw [Sign, if_neg (not_le.mpr hpos)] at this
    exact (Except.ok.inj this).symm.trans (by rw [mul_comm])
  -- recover computes the Lagrange combination
  rw [recover_computes_lagrange r shares ids system
    (by
      intro hcontr
      rw [hcontr] at hslen
      simp at hslen
      omega)
    hslen hpos
    (by
      intro s hs
      obtain ⟨i, hi, rfl⟩ := List.mem_iff_getElem.mp hs
      have hi' : i < ids.length := by omega
      have := hshare i hi'
      rw [List.getD_eq_getElem shares default (by omega)] at this
      rw [this])
    hdist]
  -- identify the combination with the interpolated value
  have hf := sum_lagrangeCoeffSpec_eval r ids
    (∑ j ∈ Finset.range t, Polynomial.C (c j) * Polynomial.X ^ j)
    (by rw [hlent]; exact sharePoly_degree_lt r t c ht) hdist
  have hx : ∀ i, i < ids.length →
      (shares.getD i default).val =
        (∑ j ∈ Finset.range t, Polynomial.C (c j) * Polynomial.X ^ j).eval
          (((ids.getD i 0 + 1 : ℤ) : ZMod r)) * hG1 d := by
    intro i hi
    rw [hshare i hi, sharePoly_eval]
    show (∑ j ∈ Finset.range t,
        c j * ((((ids.getD i 0).toNat + 1) ^ j : ℕ) : ZMod r)) * hG1 d = _
    congr 1
    apply Finset.sum_congr rfl
    intro j _
    congr 1
    conv_rhs => rw [← htoNat i hi]
    push_cast
    ring
  have hval : (∑ i ∈ Finset.range ids.length,
      lagrangeCoeffSpec r ids i * (shares.getD i default).val) =
      c 0 * hG1 d := by
    calc (∑ i ∈ Finset.range ids.length,
          lagrangeCoeffSpec r ids i * (shares.getD i default).val)
        = (∑ i ∈ Finset.range ids.length,
            lagrangeCoeffSpec r ids i *
              (∑ j ∈ Finset.range t,
                Polynomial.C (c j) * Polynomial.X ^ j).eval
                (((ids.getD i 0 + 1 : ℤ) : ZMod r))) * hG1 d := by
          rw [Finset.sum_mul]
          apply Finset.sum_congr rfl
          intro i hi
          rw [hx i (Finset.mem_range.mp hi), mul_assoc]
      _ = c 0 * hG1 d := by
          rw [hf, sharePoly_eval_zero r t c ht]
  rw [hval]

/-- C2: for valid thresholds `1 ≤ t ≤ n` (with `n` below the prime group
order) and a successful `GenKeyShares`, recovering from the `Sign` shares of
any `t` distinct in-range member ids yields a signature accepted by `Verify`
under the group public key, and two different `t`-subsets produce the same
signature bytes. -/
theorem threshold_recover_verify (r : ℕ) [Fact (Nat.Prime r)]
    (hG1 : Digest → ZMod r) (t n : ℕ) (c : ℕ → ZMod r) (system : System r)
    (d : Digest) (ht : 1 ≤ t) (htn : t ≤ n) (hnr : (n : ℤ) < (r : ℤ))
    (hpos : 0 < system.signatureLength)
    (gpub : PublicKey r) (mpubs : List (PublicKey r)) (gsec : PrivateKey r)
    (msecs : List (PrivateKey r))
    (hgen : GenKeyShares r t n c system = .ok (gpub, mpubs, gsec, msecs))
    (ids1 ids2 : List ℤ)
    (h1len : ids1.length = t) (h1nd : ids1.Nodup)
    (h1b : ∀ id ∈ ids1, 0 ≤ id ∧ id < (n : ℤ))
    (h2len : ids2.length = t) (h2nd : ids2.Nodup)
    (h2b : ∀ id ∈ ids2, 0 ≤ id ∧ id < (n : ℤ))
    (shares1 shares2 : List (Sig r))
    (hs1len : shares1.length = ids1.length)
    (hs2len : shares2.length = ids2.length)
    (hsig1 : ∀ i, i < ids1.length →
      Sign r hG1 d (msecs.getD (ids1.getD i 0).toNat default) =
        .ok (shares1.getD i default))
    (hsig2 : ∀ i, i < ids2.length →
      Sign r hG1 d (msecs.getD (ids2.getD i 0).toNat default) =
        .ok (shares2.getD i default)) :
    ∃ s : Sig r, Recover r shares1 ids1 system = .ok s ∧
      Recover r shares2 ids2 system = .ok s ∧
      Verify r hG1 s d gpub = .ok true := by
  obtain ⟨hgpub, _, _⟩ :=
    genKeyShares_components r t n c system ht htn gpub mpubs gsec msecs hgen
  refine ⟨⟨system.signatureLength, c 0 * hG1 d⟩,
    recover_shares r hG1 t n c system d ht htn hnr hpos gpub mpubs gsec msecs
      hgen ids1 h1len h1nd h1b shares1 hs1len hsig1,
    recover_shares r hG1 t n c system d ht htn hnr hpos gpub mpubs gsec msecs
      hgen ids2 h2len h2nd h2b shares2 hs2len hsig2, ?_⟩
  rw [hgpub, Verify]
  have halg : c 0 * hG1 d * system.g - hG1 d * (c 0 * system.g) = 0 := by
    ring
  simp [not_le.mpr hpos, halg]

/-- Witness for C2 at `r = 5`, `t = 2`, `n = 3`, member subsets `[0, 1]` and
`[1, 2]`, with all shares computed concretely. -/
theorem threshold_recover_verify_witness :
    ∃ s : Sig 5,
      Recover 5 [⟨1, 4⟩, ⟨1, 0⟩] [0, 1] ⟨2, 1⟩ = .ok s ∧
      Recover 5 [⟨1, 0⟩, ⟨1, 1⟩] [1, 2] ⟨2, 1⟩ = .ok s ∧
      Verify 5 (fun u => (u : ZMod 5)) s 3 ⟨⟨2, 1⟩, 2⟩ = .ok true := by
  have hgen : GenKeyShares 5 2 3 (fun j => ((j : ZMod 5) + 1)) ⟨2, 1⟩ =
      .ok (⟨⟨2, 1⟩, 2⟩, [⟨⟨2, 1⟩, 1⟩, ⟨⟨2, 1⟩, 0⟩, ⟨⟨2, 1⟩, 4⟩],
        ⟨⟨2, 1⟩, 1⟩, [⟨⟨2, 1⟩, 3⟩, ⟨⟨2, 1⟩, 0⟩, ⟨⟨2, 1⟩, 2⟩]) := by decide
  have ha1 : (1 : ℕ) ≤ 2 := by decide
  have ha2 : (2 : ℕ) ≤ 3 := by decide
  have ha3 : ((3 : ℕ) : ℤ) < ((5 : ℕ) : ℤ) := by decide
  have ha4 : (0 : ℤ) < (⟨2, 1⟩ : System 5).signatureLength := by decide
  have hb1 : ([0, 1] : List ℤ).length = 2 := by decide
  have hb2 : ([0, 1] : List ℤ).Nodup := by decide
  have hb3 : ∀ id ∈ ([0, 1] : List ℤ), 0 ≤ id ∧ id < ((3 : ℕ) : ℤ) := by
    decide
  have hc1 : ([1, 2] : List ℤ).length = 2 := by decide
  have hc2 : ([1, 2] : List ℤ).Nodup := by decide
  have hc3 : ∀ id ∈ ([1, 2] : List ℤ), 0 ≤ id ∧ id < ((3 : ℕ) : ℤ) := by
    decide
  have hd1 : ([⟨1, 4⟩, ⟨1, 0⟩] : List (Sig 5)).length =
      ([0, 1] : List ℤ).length := by decide
  have hd2 : ([⟨1, 0⟩, ⟨1, 1⟩] : List (Sig 5)).length =
      ([1, 2] : List ℤ).length := by decide
  have he1 : ∀ i, i < ([0, 1] : List ℤ).length →
      Sign 5 (fun u => (u : ZMod 5)) 3
        (([⟨⟨2, 1⟩, 3⟩, ⟨⟨2, 1⟩, 0⟩, ⟨⟨2, 1⟩, 2⟩] :
          List (PrivateKey 5)).getD (([0, 1] : List ℤ).getD i 0).toNat
            default) =
        .ok (([⟨1, 4⟩, ⟨1, 0⟩] : List (Sig 5)).getD i default) := by decide
  have he2 : ∀ i, i < ([1, 2] : List ℤ).length →
      Sign 5 (fun u => (u : ZMod 5)) 3
        (([⟨⟨2, 1⟩, 3⟩, ⟨⟨2, 1⟩, 0⟩, ⟨⟨2, 1⟩, 2⟩] :
          List (PrivateKey 5)).getD (([1, 2] : List ℤ).getD i 0).toNat
            default) =
        .ok (([⟨1, 0⟩, ⟨1, 1⟩] : List (Sig 5)).getD i default) := by decide
  haveI : Fact (Nat.Prime 5) := ⟨by norm_num⟩
  exact threshold_recover_verify 5 (fun u => (u : ZMod 5)) 2 3
    (fun j => ((j : ZMod 5) + 1)) ⟨2, 1⟩ 3 ha1 ha2 ha3 ha4
    ⟨⟨2, 1⟩, 2⟩ [⟨⟨2, 1⟩, 1⟩, ⟨⟨2, 1⟩, 0⟩, ⟨⟨2, 1⟩, 4⟩]
    ⟨⟨2, 1⟩, 1⟩ [⟨⟨2, 1⟩, 3⟩, ⟨⟨2, 1⟩, 0⟩, ⟨⟨2, 1⟩, 2⟩] hgen
    [0, 1] [1, 2] hb1 hb2 hb3 hc1 hc2 hc3
    [⟨1, 4⟩, ⟨1, 0⟩] [⟨1, 0⟩, ⟨1, 1⟩] hd1 hd2 he1 he2

/-- C1: signing a digest with a private key and verifying the result with the
public key generated together with it succeeds and accepts, for every system
with positive signature length, every hash-to-G1 map, every random scalar and
every digest. -/
theorem sign_verify_roundtrip (r : ℕ) (hG1 : Digest → ZMod r)
    (system : System r) (x : ZMod r) (hash : Digest)
    (hlen : 0 < system.signatureLength) :
    ∃ signature : Sig r,
      Sign r hG1 hash (GenKeys r system x).2 = .ok signature ∧
      Verify r hG1 signature hash (GenKeys r system x).1 = .ok true := by
  refine ⟨⟨system.signatureLength, x * hG1 hash⟩, ?_, ?_⟩
  · rw [Sign, GenKeys]
    simp [not_le.mpr hlen]
  · rw [Verify, GenKeys]
    have : x * hG1 hash * system.g - hG1 hash * (x * system.g) = 0 := by ring
    simp [not_le.mpr hlen, this]

/-- Witness for C1 at a concrete instance: `r = 5`, `g = 2`,
`signatureLength = 1`, `x = 3`, digest `7`, `hG1` the mod-5 reduction. -/
theorem sign_verify_roundtrip_witness :
    (0 : ℤ) < 1 ∧
    ∃ signature : Sig 5,
      Sign 5 (fun n => (n : ZMod 5)) 7 (GenKeys 5 ⟨2, 1⟩ 3).2 = .ok signature ∧
      Verify 5 (fun n => (n : ZMod 5)) signature 7 (GenKeys 5 ⟨2, 1⟩ 3).1 =
        .ok true :=
  ⟨by decide, sign_verify_roundtrip 5 (fun n => (n : ZMod 5)) ⟨2, 1⟩ 3 7 (by decide)⟩

/-- In range, `aget` returns the stored digest. -/
theorem aget_some {hashes : List Digest} {m : ℤ} (h0 : 0 ≤ m)
    (hlt : m < (hashes.length : ℤ)) : aget hashes m = some (gval hashes m) := by
  rw [aget, if_pos h0, gval]
  have hm : m.toNat < hashes.length := by omega
  rw [List.getD_eq_getElem?_getD, List.getElem?_eq_getElem hm]
  rfl

/-- `agreeOutside` is reflexive. -/
theorem agreeOutside_refl (l r : ℤ) (h : List Digest) :
    agreeOutside l r h h := fun _ _ => rfl

/-- `agreeOutside` composes. -/
theorem agreeOutside_trans {l r : ℤ} {h1 h2 h3 : List Digest}
    (a : agreeOutside l r h1 h2) (b : agreeOutside l r h2 h3) :
    agreeOutside l r h1 h3 := fun m hm => (a m hm).trans (b m hm)

/-- Outside agreement at in-range positions of equal-length lists gives
equal stored digests. -/
theorem agreeOutside_gval {l r : ℤ} {h1 h2 : List Digest}
    (hag : agreeOutside l r h1 h2) {m : ℤ} (hm : m < l ∨ r < m) (h0 : 0 ≤ m)
    (hlen : h1.length = h2.length) (hlt : m < (h1.length : ℤ)) :
    gval h1 m = gval h2 m := by
  have := hag m hm
  rw [aget_some h0 hlt, aget_some h0 (by omega)] at this
  exact Option.some.inj this

/-- Swapping the head with position `b` of the tail is a permutation. -/
theorem head_swap_perm (x : Digest) : ∀ (t : List Digest) (b : ℕ),
    b < t.length → (t.getD b 0 :: t.set b x).Perm (x :: t) := by
  intro t
  induction t with
  | nil => intro b hb; cases hb
  | cons y t' ih =>
    intro b hb
    cases b with
    | zero =>
      simp only [List.getD_cons_zero, List.set_cons_zero]
      exact List.Perm.swap x y t'
    | succ b' =>
      simp only [List.getD_cons_succ, List.set_cons_succ]
      exact (List.Perm.swap _ _ _).trans
        (((ih b' (by simpa using hb)).cons y).trans (List.Perm.swap _ _ _))

/-- The two-`set` swap is a permutation. -/
theorem set_set_swap_perm : ∀ (h : List Digest) (a b : ℕ),
    a < h.length → b < h.length →
    ((h.set a (h.getD b 0)).set b (h.getD a 0)).Perm h := by
  intro h
  induction h with
  | nil => intro a b ha _; cases ha
  | cons x t ih =>
    intro a b ha hb
    cases a with
    | zero =>
      cases b with
      | zero => simp
      | succ b' =>
        simp only [List.getD_cons_succ, List.getD_cons_zero,
          List.set_cons_zero, List.set_cons_succ]
        exact head_swap_perm x t b' (by simpa using hb)
    | succ a' =>
      cases b with
      | zero =>
        simp only [List.getD_cons_succ, List.getD_cons_zero,
          List.set_cons_zero, List.set_cons_succ]
        exact head_swap_perm x t a' (by simpa using ha)
      | succ b' =>
        simp only [List.getD_cons_succ, List.set_cons_succ]
        exact (ih a' b' (by simpa using ha) (by simpa using hb)).cons x

/-- In range, `swapF` succeeds and swaps by two `set`s. -/
theorem swapF_eq {hashes : List Digest} {i j : ℤ} (hi0 : 0 ≤ i)
    (hilt : i < (hashes.length : ℤ)) (hj0 : 0 ≤ j)
    (hjlt : j < (hashes.length : ℤ)) :
    swapF hashes i j = some
      ((hashes.set i.toNat (gval hashes j)).set j.toNat (gval hashes i)) := by
  rw [swapF, aget_some hi0 hilt, aget_some hj0 hjlt]

/-- Swapping preserves the length. -/
theorem swap_length (hashes : List Digest) (i j : ℕ) (v w : Digest) :
    ((hashes.set i v).set j w).length = hashes.length := by
  simp

/-- Swapping is a permutation. -/
theorem swap_perm {hashes : List Digest} {i j : ℤ} (hi0 : 0 ≤ i)
    (hilt : i < (hashes.length : ℤ)) (hj0 : 0 ≤ j)
    (hjlt : j < (hashes.length : ℤ)) :
    ((hashes.set i.toNat (gval hashes j)).set j.toNat
      (gval hashes i)).Perm hashes :=
  set_set_swap_perm hashes i.toNat j.toNat (by omega) (by omega)

/-- The left target of the swap receives the old right digest. -/
theorem gval_swap_left {hashes : List Digest} {i j : ℤ} (hi0 : 0 ≤ i)
    (hilt : i < (hashes.length : ℤ)) (hj0 : 0 ≤ j)
    (hjlt : j < (hashes.length : ℤ)) :
    gval ((hashes.set i.toNat (gval hashes j)).set j.toNat
      (gval hashes i)) i = gval hashes j := by
  by_cases hij : i = j
  · subst hij
    rw [gval, List.set_set, List.getD_eq_getElem?_getD,
      List.getElem?_set_self (by omega)]
    rfl
  · have hne : j.toNat ≠ i.toNat := by omega
    rw [gval, List.getD_eq_getElem?_getD, List.getElem?_set_ne hne,
      List.getElem?_set_self (by omega)]
    rfl

/-- The right target of the swap receives the old left digest. -/
theorem gval_swap_right {hashes : List Digest} {i j : ℤ} (hj0 : 0 ≤ j)
    (hjlt : j < (hashes.length : ℤ)) :
    gval ((hashes.set i.toNat (gval hashes j)).set j.toNat
      (gval hashes i)) j = gval hashes i := by
  rw [gval, List.getD_eq_getElem?_getD, List.getElem?_set_self (by simp; omega)]
  rfl

/-- Positions other than the two swap targets are unchanged. -/
theorem gval_swap_other {hashes : List Digest} {i j m : ℤ} (hm0 : 0 ≤ m)
    (hmi : m ≠ i) (hmj : m ≠ j) (hi0 : 0 ≤ i) (hj0 : 0 ≤ j) :
    gval ((hashes.set i.toNat (gval hashes j)).set j.toNat
      (gval hashes i)) m = gval hashes m := by
  have h1 : j.toNat ≠ m.toNat := by omega
  have h2 : i.toNat ≠ m.toNat := by omega
  simp only [gval, List.getD_eq_getElem?_getD, List.getElem?_set_ne h1,
    List.getElem?_set_ne h2]

/-- The swap agrees with the original outside `[l, r]` when both targets lie
inside. -/
theorem swap_agreeOutside {hashes : List Digest} {l r i j : ℤ}
    (hli : l ≤ i) (hir : i ≤ r) (hlj : l ≤ j) (hjr : j ≤ r)
    (hi0 : 0 ≤ i) (hj0 : 0 ≤ j) :
    agreeOutside l r hashes
      ((hashes.set i.toNat (gval hashes j)).set j.toNat (gval hashes i)) := by
  intro m hm
  by_cases hm0 : 0 ≤ m
  · have h1 : j.toNat ≠ m.toNat := by omega
    have h2 : i.toNat ≠ m.toNat := by omega
    rw [aget, aget, if_pos hm0, if_pos hm0, List.getElem?_set_ne h1,
      List.getElem?_set_ne h2]
  · rw [aget, aget, if_neg hm0, if_neg hm0]

/-- The left scan: with a stopper at position `k`, it succeeds, stays within
`[i, k]`, stops at a digest at least the pivot and skips only digests below
the pivot. -/
theorem iScanF_spec : ∀ (fuel : ℕ) (hashes : List Digest) (pivot : Digest)
    (i k : ℤ), 0 ≤ i → i ≤ k → k < (hashes.length : ℤ) →
    pivot ≤ gval hashes k → (k - i).toNat < fuel →
    ∃ i1, iScanF fuel hashes pivot i = some i1 ∧ i ≤ i1 ∧ i1 ≤ k ∧
      pivot ≤ gval hashes i1 ∧
      ∀ m : ℤ, i ≤ m → m < i1 → gval hashes m < pivot := by
  intro fuel
  induction fuel with
  | zero => intro hashes pivot i k _ _ _ _ hf; exact absurd hf (by omega)
  | succ f ih =>
    intro hashes pivot i k hi0 hik hk hstop hf
    have hstep : iScanF (f + 1) hashes pivot i =
        if gval hashes i < pivot then iScanF f hashes pivot (i + 1)
        else some i := by
      rw [iScanF, aget_some hi0 (by omega)]
    rw [hstep]
    by_cases hlt : gval hashes i < pivot
    · rw [if_pos hlt]
      have hik' : i ≠ k := by
        intro hc
        rw [hc] at hlt
        exact absurd hlt (not_lt.mpr hstop)
      obtain ⟨i1, hrun, hge, hle, hstop1, hskip⟩ :=
        ih hashes pivot (i + 1) k (by omega) (by omega) hk hstop (by omega)
      refine ⟨i1, hrun, by omega, hle, hstop1, ?_⟩
      intro m hm hm1
      by_cases hmi : m = i
      · rw [hmi]; exact hlt
      · exact hskip m (by omega) hm1
    · rw [if_neg hlt]
      exact ⟨i, rfl, le_refl i, hik, not_lt.mp hlt,
        fun m hm hm1 => absurd hm1 (not_lt.mpr hm)⟩

/-- The right scan, symmetrically. -/
theorem jScanF_spec : ∀ (fuel : ℕ) (hashes : List Digest) (pivot : Digest)
    (j k : ℤ), 0 ≤ k → k ≤ j → j < (hashes.length : ℤ) →
    gval hashes k ≤ pivot → (j - k).toNat < fuel →
    ∃ j1, jScanF fuel hashes pivot j = some j1 ∧ k ≤ j1 ∧ j1 ≤ j ∧
      gval hashes j1 ≤ pivot ∧
      ∀ m : ℤ, j1 < m → m ≤ j → pivot < gval hashes m := by
  intro fuel
  induction fuel with
  | zero => intro hashes pivot j k _ _ _ _ hf; exact absurd hf (by omega)
  | succ f ih =>
    intro hashes pivot j k hk0 hkj hj hstop hf
    have hstep : jScanF (f + 1) hashes pivot j =
        if pivot < gval hashes j then jScanF f hashes pivot (j - 1)
        else some j := by
      rw [jScanF, aget_some (by omega) hj]
    rw [hstep]
    by_cases hlt : pivot < gval hashes j
    · rw [if_pos hlt]
      have hjk' : j ≠ k := by
        intro hc
        rw [hc] at hlt
        exact absurd hlt (not_lt.mpr hstop)
      obtain ⟨j1, hrun, hge, hle, hstop1, hskip⟩ :=
        ih hashes pivot (j - 1) k hk0 (by omega) (by omega) hstop (by omega)
      refine ⟨j1, hrun, hge, by omega, hstop1, ?_⟩
      intro m hm hm1
      by_cases hmj : m = j
      · rw [hmj]; exact hlt
      · exact hskip m hm (by omega)
    · rw [if_neg hlt]
      exact ⟨j, rfl, hkj, le_refl j, not_lt.mp hlt,
        fun m hm hm1 => absurd hm (not_lt.mpr hm1)⟩

/-- One iteration body of the partition loop: both scans succeed within
their witness bounds and, when the stopped indices have not crossed, the
swap succeeds and re-establishes every loop invariant at `(i1+1, j1-1)`. -/
theorem partLoop_step (l r : ℤ) (fuel : ℕ) (hashes : List Digest)
    (pivot : Digest) (i j kI kJ : ℤ)
    (hl : 0 ≤ l) (hli : l ≤ i) (hjr : j ≤ r)
    (hrlen : r < (hashes.length : ℤ))
    (hkIi : i ≤ kI) (hkIr : kI ≤ r) (hkIp : pivot ≤ gval hashes kI)
    (hkJl : l ≤ kJ) (hkJj : kJ ≤ j) (hkJp : gval hashes kJ ≤ pivot)
    (pre : ∀ m, l ≤ m → m < i → gval hashes m ≤ pivot)
    (post : ∀ m, j < m → m ≤ r → pivot ≤ gval hashes m)
    (hfuel : (r - l).toNat + 1 ≤ fuel) :
    ∃ i1 j1, iScanF fuel hashes pivot i = some i1 ∧
      jScanF fuel hashes pivot j = some j1 ∧
      i ≤ i1 ∧ i1 ≤ kI ∧ kJ ≤ j1 ∧ j1 ≤ j ∧
      pivot ≤ gval hashes i1 ∧ gval hashes j1 ≤ pivot ∧
      (∀ m, l ≤ m → m < i1 → gval hashes m ≤ pivot) ∧
      (∀ m, j1 < m → m ≤ r → pivot ≤ gval hashes m) ∧
      (i1 ≤ j1 →
        ∃ h1, swapF hashes i1 j1 = some h1 ∧ h1.Perm hashes ∧
          h1.length = hashes.length ∧ agreeOutside l r hashes h1 ∧
          (∀ m, l ≤ m → m < i1 + 1 → gval h1 m ≤ pivot) ∧
          (∀ m, j1 - 1 < m → m ≤ r → pivot ≤ gval h1 m) ∧
          (i1 + 1 ≤ j1 - 1 →
            ∃ k, i1 + 1 ≤ k ∧ k ≤ r ∧ pivot ≤ gval h1 k) ∧
          (i1 + 1 ≤ j1 - 1 →
            ∃ k, l ≤ k ∧ k ≤ j1 - 1 ∧ gval h1 k ≤ pivot) ∧
          (∀ B, (∀ m, l ≤ m → m ≤ r → gval hashes m ≤ B) →
            ∀ m, l ≤ m → m ≤ r → gval h1 m ≤ B) ∧
          (∀ B, (∀ m, l ≤ m → m ≤ r → B ≤ gval hashes m) →
            ∀ m, l ≤ m → m ≤ r → B ≤ gval h1 m)) := by
  obtain ⟨i1, hirun, hi1ge, hi1le, hi1p, hiskip⟩ :=
    iScanF_spec fuel hashes pivot i kI (by omega) hkIi (by omega) hkIp
      (by omega)
  obtain ⟨j1, hjrun, hj1ge, hj1le, hj1p, hjskip⟩ :=
    jScanF_spec fuel hashes pivot j kJ (by omega) hkJj (by omega) hkJp
      (by omega)
  have pre1 : ∀ m, l ≤ m → m < i1 → gval hashes m ≤ pivot := by
    intro m hm hm1
    by_cases hmi : m < i
    · exact pre m hm hmi
    · exact le_of_lt (hiskip m (by omega) hm1)
  have post1 : ∀ m, j1 < m → m ≤ r → pivot ≤ gval hashes m := by
    intro m hm hm1
    by_cases hmj : j < m
    · exact post m hmj hm1
    · exact le_of_lt (hjskip m hm (by omega))
  refine ⟨i1, j1, hirun, hjrun, hi1ge, hi1le, hj1ge, hj1le, hi1p, hj1p,
    pre1, post1, ?_⟩
  intro hcross
  have hi10 : 0 ≤ i1 := by omega
  have hi1lt : i1 < (hashes.length : ℤ) := by omega
  have hj10 : 0 ≤ j1 := by omega
  have hj1lt : j1 < (hashes.length : ℤ) := by omega
  refine ⟨_, swapF_eq hi10 hi1lt hj10 hj1lt,
    swap_perm hi10 hi1lt hj10 hj1lt, by simp,
    swap_agreeOutside (by omega) (by omega) (by omega) (by omega) hi10 hj10,
    ?_, ?_, ?_, ?_, ?_, ?_⟩
  · intro m hm hm1
    by_cases hmi : m = i1
    · rw [hmi, gval_swap_left hi10 hi1lt hj10 hj1lt]
      exact hj1p
    · have hmj : m ≠ j1 := by omega
      rw [gval_swap_other (by omega) hmi hmj hi10 hj10]
      exact pre1 m hm (by omega)
  · intro m hm hm1
    by_cases hmj : m = j1
    · rw [hmj, gval_swap_right hj10 hj1lt]
      exact hi1p
    · have hmi : m ≠ i1 := by omega
      rw [gval_swap_other (by omega) hmi hmj hi10 hj10]
      exact post1 m (by omega) hm1
  · intro h2
    refine ⟨j1, by omega, by omega, ?_⟩
    rw [gval_swap_right hj10 hj1lt]
    exact hi1p
  · intro h2
    refine ⟨i1, by omega, by omega, ?_⟩
    rw [gval_swap_left hi10 hi1lt hj10 hj1lt]
    exact hj1p
  · intro B hB m hm hm1
    by_cases hmi : m = i1
    · rw [hmi, gval_swap_left hi10 hi1lt hj10 hj1lt]
      exact hB j1 (by omega) (by omega)
    · by_cases hmj : m = j1
      · rw [hmj, gval_swap_right hj10 hj1lt]
        exact hB i1 (by omega) (by omega)
      · rw [gval_swap_other (by omega) hmi hmj hi10 hj10]
        exact hB m hm hm1
  · intro B hB m hm hm1
    by_cases hmi : m = i1
    · rw [hmi, gval_swap_left hi10 hi1lt hj10 hj1lt]
      exact hB j1 (by omega) (by omega)
    · by_cases hmj : m = j1
      · rw [hmj, gval_swap_right hj10 hj1lt]
        exact hB i1 (by omega) (by omega)
      · rw [gval_swap_other (by omega) hmi hmj hi10 hj10]
        exact hB m hm hm1

/-- Fuel arithmetic for the partition loop recursion. -/
theorem fuel_step_le {i j i1 j1 l r : ℤ} {f : ℕ}
    (h1 : i ≤ i1) (h2 : j1 ≤ j) (h3 : i ≤ j)
    (hf : (j - i + 2).toNat + (r - l).toNat + 2 ≤ f + 1) :
    ((j1 - 1) - (i1 + 1) + 2).toNat + (r - l).toNat + 2 ≤ f := by omega

/-- The partition loop of `quicksort`: from a state satisfying the loop
invariants it terminates within its fuel, returns a permutation of the array
changed only inside `[l, r]`, with crossed indices, everything left of `i1`
at most the pivot and everything right of `j1` at least the pivot, and
preserves value bounds on `[l, r]`. -/
theorem partLoopF_spec (l r : ℤ) : ∀ (fuel : ℕ) (hashes : List Digest)
    (pivot : Digest) (i j : ℤ),
    0 ≤ l → l ≤ i → j ≤ r → r < (hashes.length : ℤ) → i ≤ r + 1 →
    l - 1 ≤ j →
    (i ≤ j → ∃ k, i ≤ k ∧ k ≤ r ∧ pivot ≤ gval hashes k) →
    (i ≤ j → ∃ k, l ≤ k ∧ k ≤ j ∧ gval hashes k ≤ pivot) →
    (∀ m, l ≤ m → m < i → gval hashes m ≤ pivot) →
    (∀ m, j < m → m ≤ r → pivot ≤ gval hashes m) →
    ((j - i + 2).toNat + (r - l).toNat + 2 ≤ fuel) →
    ∃ h1 i1 j1, partLoopF fuel hashes pivot i j = some (h1, i1, j1) ∧
      h1.Perm hashes ∧ h1.length = hashes.length ∧
      agreeOutside l r hashes h1 ∧
      i ≤ i1 ∧ j1 ≤ j ∧ l ≤ i1 ∧ i1 ≤ r + 1 ∧ l - 1 ≤ j1 ∧ j1 ≤ r ∧
      j1 < i1 ∧
      (∀ m, l ≤ m → m < i1 → gval h1 m ≤ pivot) ∧
      (∀ m, j1 < m → m ≤ r → pivot ≤ gval h1 m) ∧
      (∀ B, (∀ m, l ≤ m → m ≤ r → gval hashes m ≤ B) →
        ∀ m, l ≤ m → m ≤ r → gval h1 m ≤ B) ∧
      (∀ B, (∀ m, l ≤ m → m ≤ r → B ≤ gval hashes m) →
        ∀ m, l ≤ m → m ≤ r → B ≤ gval h1 m) := by
  intro fuel
  induction fuel with
  | zero =>
    intro hashes pivot i j _ _ _ _ _ _ _ _ _ _ hf
    exact absurd hf (by omega)
  | succ f ih =>
    intro hashes pivot i j hl hli hjr hrlen hir1 hlj1 wI wJ pre post hf
    by_cases hij : i ≤ j
    case neg =>
      refine ⟨hashes, i, j, ?_, List.Perm.refl _, rfl,
        agreeOutside_refl l r hashes, le_refl i, le_refl j, hli, hir1, hlj1,
        hjr, by omega, pre, post, fun B hB => hB, fun B hB => hB⟩
      simp only [partLoopF, if_neg hij]
    case pos =>
      obtain ⟨kI, hkIi, hkIr, hkIp⟩ := wI hij
      obtain ⟨kJ, hkJl, hkJj, hkJp⟩ := wJ hij
      obtain ⟨i1, j1, hirun, hjrun, hi1ge, hi1le, hj1ge, hj1le, hi1p, hj1p,
        pre1, post1, hcrossfn⟩ :=
        partLoop_step l r f hashes pivot i j kI kJ hl hli hjr hrlen
          hkIi hkIr hkIp hkJl hkJj hkJp pre post (by omega)
      by_cases hcross : i1 ≤ j1
      case pos =>
        obtain ⟨h1, hswap, hperm1, hlen1, hagree1, pre2, post2, wI2, wJ2,
          bLE1, bGE1⟩ := hcrossfn hcross
        have hred : partLoopF (f + 1) hashes pivot i j =
            partLoopF f h1 pivot (i1 + 1) (j1 - 1) := by
          simp only [partLoopF, if_pos hij, hirun, hjrun, if_pos hcross,
            hswap]
        have hb1 : l ≤ i1 + 1 := by omega
        have hb2 : j1 - 1 ≤ r := by omega
        have hb3 : r < (h1.length : ℤ) := by
          rw [hlen1]
          exact hrlen
        have hb4 : i1 + 1 ≤ r + 1 := by omega
        have hb5 : l - 1 ≤ j1 - 1 := by omega
        have hb6 : ((j1 - 1) - (i1 + 1) + 2).toNat + (r - l).toNat + 2 ≤
            f := fuel_step_le hi1ge hj1le hij hf
        obtain ⟨h2, i2, j2, hrun2, hperm2, hlen2, hagree2, hi2ge, hj2le,
          hi2l, hi2r, hj2l, hj2r, hji2, pre3, post3, bLE2, bGE2⟩ :=
          ih h1 pivot (i1 + 1) (j1 - 1) hl hb1 hb2 hb3 hb4 hb5
            wI2 wJ2 pre2 post2 hb6
        refine ⟨h2, i2, j2, by rw [hred]; exact hrun2,
          hperm2.trans hperm1, hlen2.trans hlen1,
          agreeOutside_trans hagree1 hagree2,
          by omega, by omega, hi2l, hi2r, hj2l, hj2r, hji2, pre3, post3,
          ?_, ?_⟩
        · intro B hB
          exact bLE2 B (bLE1 B hB)
        · intro B hB
          exact bGE2 B (bGE1 B hB)
      case neg =>
        have hred : partLoopF (f + 1) hashes pivot i j =
            some (hashes, i1, j1) := by
          simp only [partLoopF, if_pos hij, hirun, hjrun, if_neg hcross]
        refine ⟨hashes, i1, j1, hred, List.Perm.refl _, rfl,
          agreeOutside_refl l r hashes, hi1ge, hj1le, by omega, by omega,
          by omega, by omega, by omega, pre1, post1,
          fun B hB => hB, fun B hB => hB⟩

/-- The full partition call of `quicksort` from `(l, r)` with `l < r`: the
pivot value sits at the midpoint, so the first iteration always swaps, and
the loop returns strictly shrunken recursion ranges: `l + 1 ≤ i1` and
`j1 ≤ r - 1`. -/
theorem partition_spec (fuel : ℕ) (hashes : List Digest) (l r : ℤ)
    (hl : 0 ≤ l) (hlr : l < r) (hrlen : r < (hashes.length : ℤ))
    (hfuel : (r - l + 2).toNat + (r - l).toNat + 3 ≤ fuel) :
    ∃ h1 i1 j1,
      partLoopF fuel hashes (gval hashes ((l + r) / 2)) l r =
        some (h1, i1, j1) ∧
      h1.Perm hashes ∧ h1.length = hashes.length ∧
      agreeOutside l r hashes h1 ∧
      l + 1 ≤ i1 ∧ i1 ≤ r + 1 ∧ l - 1 ≤ j1 ∧ j1 ≤ r - 1 ∧ j1 < i1 ∧
      (∀ m, l ≤ m → m < i1 → gval h1 m ≤ gval hashes ((l + r) / 2)) ∧
      (∀ m, j1 < m → m ≤ r → gval hashes ((l + r) / 2) ≤ gval h1 m) ∧
      (∀ B, (∀ m, l ≤ m → m ≤ r → gval hashes m ≤ B) →
        ∀ m, l ≤ m → m ≤ r → gval h1 m ≤ B) ∧
      (∀ B, (∀ m, l ≤ m → m ≤ r → B ≤ gval hashes m) →
        ∀ m, l ≤ m → m ≤ r → B ≤ gval h1 m) := by
  obtain ⟨f, rfl⟩ : ∃ f, fuel = f + 1 := ⟨fuel - 1, by omega⟩
  have hfuelA : (r - l).toNat + 1 ≤ f := by omega
  have hfuelB : (r - l + 2).toNat + (r - l).toNat + 2 ≤ f + 1 := by omega
  have hmid_l : l ≤ (l + r) / 2 := by
    have h2 : (2 * l) / 2 ≤ (l + r) / 2 :=
      Int.ediv_le_ediv (by norm_num) (by omega)
    rwa [Int.mul_ediv_cancel_left l (by norm_num)] at h2
  have hmid_r : (l + r) / 2 ≤ r := by
    have h2 : (l + r) / 2 ≤ (2 * r) / 2 :=
      Int.ediv_le_ediv (by norm_num) (by omega)
    rwa [Int.mul_ediv_cancel_left r (by norm_num)] at h2
  obtain ⟨i1, j1, hirun, hjrun, hi1ge, hi1le, hj1ge, hj1le, hi1p, hj1p,
    pre1, post1, hcrossfn⟩ :=
    partLoop_step l r f hashes (gval hashes ((l + r) / 2)) l r
      ((l + r) / 2) ((l + r) / 2) hl (le_refl l) (le_refl r) hrlen
      hmid_l hmid_r (le_refl _) hmid_l hmid_r (le_refl _)
      (fun m hm hm1 => absurd hm1 (not_lt.mpr hm))
      (fun m hm hm1 => absurd hm (not_lt.mpr hm1)) hfuelA
  have hcross : i1 ≤ j1 := hi1le.trans hj1ge
  obtain ⟨h1, hswap, hperm1, hlen1, hagree1, pre2, post2, wI2, wJ2,
    bLE1, bGE1⟩ := hcrossfn hcross
  have hred : partLoopF (f + 1) hashes (gval hashes ((l + r) / 2)) l r =
      partLoopF f h1 (gval hashes ((l + r) / 2)) (i1 + 1) (j1 - 1) := by
    simp only [partLoopF, if_pos (le_of_lt hlr), hirun, hjrun,
      if_pos hcross, hswap]
  obtain ⟨h2, i2, j2, hrun2, hperm2, hlen2, hagree2, hi2ge, hj2le, hi2l,
    hi2r, hj2l, hj2r, hji2, pre3, post3, bLE2, bGE2⟩ :=
    partLoopF_spec l r f h1 (gval hashes ((l + r) / 2)) (i1 + 1) (j1 - 1)
      hl (by omega) (by omega) (by rw [hlen1]; exact hrlen) (by omega)
      (by omega) wI2 wJ2 pre2 post2
      (fuel_step_le hi1ge hj1le (le_of_lt hlr) hfuelB)
  exact ⟨h2, i2, j2, by rw [hred]; exact hrun2, hperm2.trans hperm1,
    hlen2.trans hlen1, agreeOutside_trans hagree1 hagree2,
    by omega, hi2r, hj2l, by omega, hji2, pre3, post3,
    fun B hB => bLE2 B (bLE1 B hB), fun B hB => bGE2 B (bGE1 B hB)⟩

/-- The midpoint of a non-empty int range lies in the range. -/
theorem mid_bounds {l r : ℤ} (hlr : l ≤ r) :
    l ≤ (l + r) / 2 ∧ (l + r) / 2 ≤ r := by
  constructor
  · have h2 : (2 * l) / 2 ≤ (l + r) / 2 :=
      Int.ediv_le_ediv (by norm_num) (by omega)
    rwa [Int.mul_ediv_cancel_left l (by norm_num)] at h2
  · have h2 : (l + r) / 2 ≤ (2 * r) / 2 :=
      Int.ediv_le_ediv (by norm_num) (by omega)
    rwa [Int.mul_ediv_cancel_left r (by norm_num)] at h2

/-- `quicksortF`: with enough fuel the recursion terminates without any
out-of-range access, returning a permutation of the list that is unchanged
outside `[l, r]`, position-sorted on `[l, r]` and value-bounded by the input
values of `[l, r]`. -/
theorem quicksortF_spec : ∀ (fuel : ℕ) (hashes : List Digest) (l r : ℤ),
    0 ≤ l → r < (hashes.length : ℤ) →
    3 * (r - l).toNat + 10 ≤ fuel →
    ∃ h3, quicksortF fuel hashes l r = some h3 ∧ h3.Perm hashes ∧
      h3.length = hashes.length ∧ agreeOutside l r hashes h3 ∧
      (∀ m m' : ℤ, l ≤ m → m ≤ m' → m' ≤ r → gval h3 m ≤ gval h3 m') ∧
      (∀ B, (∀ m, l ≤ m → m ≤ r → gval hashes m ≤ B) →
        ∀ m, l ≤ m → m ≤ r → gval h3 m ≤ B) ∧
      (∀ B, (∀ m, l ≤ m → m ≤ r → B ≤ gval hashes m) →
        ∀ m, l ≤ m → m ≤ r → B ≤ gval h3 m) := by
  intro fuel
  induction fuel with
  | zero =>
    intro hashes l r _ _ hf
    exact absurd hf (by omega)
  | succ f ih =>
    intro hashes l r hl hrlen hf
    by_cases hlr : l < r
    case neg =>
      refine ⟨hashes, by simp only [quicksortF, if_neg hlr], .refl _, rfl,
        agreeOutside_refl l r hashes, ?_, fun B hB => hB, fun B hB => hB⟩
      intro m m' hm hmm hm'
      have hmeq : m = m' := by omega
      rw [hmeq]
    case pos =>
      obtain ⟨hmid_l, hmid_r⟩ := mid_bounds (le_of_lt hlr)
      have hmid0 : 0 ≤ (l + r) / 2 := by omega
      have hmidlt : (l + r) / 2 < (hashes.length : ℤ) := by omega
      obtain ⟨h1, i, j, hpart, hperm1, hlen1, hagree1, hi_ge, hi_le, hj_ge,
        hj_le, hji, pre1, post1, bLE1, bGE1⟩ :=
        partition_spec f hashes l r hl hlr hrlen (by omega)
      -- left recursion
      have hleft : ∃ h2,
          (if l < j then quicksortF f h1 l j else some h1) = some h2 ∧
          h2.Perm h1 ∧ h2.length = h1.length ∧ agreeOutside l j h1 h2 ∧
          (∀ m m' : ℤ, l ≤ m → m ≤ m' → m' ≤ j →
            gval h2 m ≤ gval h2 m') ∧
          (∀ B, (∀ m, l ≤ m → m ≤ j → gval h1 m ≤ B) →
            ∀ m, l ≤ m → m ≤ j → gval h2 m ≤ B) ∧
          (∀ B, (∀ m, l ≤ m → m ≤ j → B ≤ gval h1 m) →
            ∀ m, l ≤ m → m ≤ j → B ≤ gval h2 m) := by
        by_cases hlj : l < j
        · obtain ⟨h2, hrun, hperm, hlen, hagree, hsort, hble, hbge⟩ :=
            ih h1 l j hl (by omega) (by omega)
          exact ⟨h2, by rw [if_pos hlj]; exact hrun, hperm, hlen, hagree,
            hsort, hble, hbge⟩
        · refine ⟨h1, by rw [if_neg hlj], .refl _, rfl,
            agreeOutside_refl l j h1, ?_, fun B hB => hB, fun B hB => hB⟩
          intro m m' hm hmm hm'
          have hmeq : m = m' := by omega
          rw [hmeq]
      obtain ⟨h2, hrun2, hperm2, hlen2, hagree2, sortL, bLE2, bGE2⟩ := hleft
      -- right recursion
      have hright : ∃ h3,
          (if i < r then quicksortF f h2 i r else some h2) = some h3 ∧
          h3.Perm h2 ∧ h3.length = h2.length ∧ agreeOutside i r h2 h3 ∧
          (∀ m m' : ℤ, i ≤ m → m ≤ m' → m' ≤ r →
            gval h3 m ≤ gval h3 m') ∧
          (∀ B, (∀ m, i ≤ m → m ≤ r → gval h2 m ≤ B) →
            ∀ m, i ≤ m → m ≤ r → gval h3 m ≤ B) ∧
          (∀ B, (∀ m, i ≤ m → m ≤ r → B ≤ gval h2 m) →
            ∀ m, i ≤ m → m ≤ r → B ≤ gval h3 m) := by
        by_cases hir : i < r
        · obtain ⟨h3, hrun, hperm, hlen, hagree, hsort, hble, hbge⟩ :=
            ih h2 i r (by omega) (by omega) (by omega)
          exact ⟨h3, by rw [if_pos hir]; exact hrun, hperm, hlen, hagree,
            hsort, hble, hbge⟩
        · refine ⟨h2, by rw [if_neg hir], .refl _, rfl,
            agreeOutside_refl i r h2, ?_, fun B hB => hB, fun B hB => hB⟩
          intro m m' hm hmm hm'
          have hmeq : m = m' := by omega
          rw [hmeq]
      obtain ⟨h3, hrun3, hperm3, hlen3, hagree3, sortR, bLE3, bGE3⟩ := hright
      -- run equation
      have hrun : quicksortF (f + 1) hashes l r = some h3 := by
        simp only [quicksortF, if_pos hlr, aget_some hmid0 hmidlt, hpart,
          hrun2, hrun3]
      -- transported facts
      have hLeq : ∀ m : ℤ, l ≤ m → m ≤ j → gval h3 m = gval h2 m := by
        intro m hm hmj
        exact (agreeOutside_gval hagree3 (Or.inl (by omega)) (by omega)
          (by omega) (by omega)).symm
      have hReq : ∀ m : ℤ, i ≤ m → m ≤ r → gval h2 m = gval h1 m := by
        intro m hm hmr
        exact (agreeOutside_gval hagree2 (Or.inr (by omega)) (by omega)
          (by omega) (by omega)).symm
      have hMeq : ∀ m : ℤ, j < m → m < i → gval h3 m = gval h1 m := by
        intro m hm hmi
        have e2 : gval h2 m = gval h1 m :=
          (agreeOutside_gval hagree2 (Or.inr hm) (by omega) (by omega)
            (by omega)).symm
        have e3 : gval h3 m = gval h2 m :=
          (agreeOutside_gval hagree3 (Or.inl hmi) (by omega) (by omega)
            (by omega)).symm
        rw [e3, e2]
      have hLle : ∀ m : ℤ, l ≤ m → m ≤ j →
          gval h3 m ≤ gval hashes ((l + r) / 2) := by
        intro m hm hmj
        rw [hLeq m hm hmj]
        exact bLE2 (gval hashes ((l + r) / 2))
          (fun m2 hm2 hm2j => pre1 m2 hm2 (by omega)) m hm hmj
      have hMval : ∀ m : ℤ, j < m → m < i → l ≤ m → m ≤ r →
          gval h3 m = gval hashes ((l + r) / 2) := by
        intro m hm hmi hlm hmr
        rw [hMeq m hm hmi]
        exact le_antisymm (pre1 m hlm hmi) (post1 m hm hmr)
      have hRge : ∀ m : ℤ, i ≤ m → m ≤ r →
          gval hashes ((l + r) / 2) ≤ gval h3 m := by
        intro m hm hmr
        refine bGE3 (gval hashes ((l + r) / 2)) ?_ m hm hmr
        intro m2 hm2 hm2r
        rw [hReq m2 hm2 hm2r]
        exact post1 m2 (by omega) hm2r
      refine ⟨h3, hrun, (hperm3.trans hperm2).trans hperm1,
        (hlen3.trans hlen2).trans hlen1, ?_, ?_, ?_, ?_⟩
      · intro m hm
        have a1 := hagree1 m hm
        have a2 := hagree2 m (by omega)
        have a3 := hagree3 m (by omega)
        exact (a1.trans a2).trans a3
      · intro m m' hm hmm hm'
        by_cases hmj : m ≤ j
        · by_cases hm'j : m' ≤ j
          · rw [hLeq m hm hmj, hLeq m' (by omega) hm'j]
            exact sortL m m' hm hmm hm'j
          · by_cases hm'i : m' < i
            · rw [hMval m' (by omega) hm'i (by omega) hm']
              exact hLle m hm hmj
            · exact (hLle m hm hmj).trans (hRge m' (by omega) hm')
        · by_cases hmi : m < i
          · by_cases hm'i : m' < i
            · rw [hMval m (by omega) hmi (by omega) (by omega),
                hMval m' (by omega) hm'i (by omega) hm']
            · rw [hMval m (by omega) hmi (by omega) (by omega)]
              exact hRge m' (by omega) hm'
          · exact sortR m m' (by omega) hmm hm'
      · intro B hB m hm hmr
        have hB1 : ∀ m2, l ≤ m2 → m2 ≤ r → gval h1 m2 ≤ B := bLE1 B hB
        by_cases hmj : m ≤ j
        · rw [hLeq m hm hmj]
          exact bLE2 B (fun m2 hm2 hm2j => hB1 m2 hm2 (by omega)) m hm hmj
        · by_cases hmi : m < i
          · rw [hMeq m (by omega) hmi]
            exact hB1 m hm hmr
          · refine bLE3 B ?_ m (by omega) hmr
            intro m2 hm2 hm2r
            rw [hReq m2 hm2 hm2r]
            exact hB1 m2 (by omega) hm2r
      · intro B hB m hm hmr
        have hB1 : ∀ m2, l ≤ m2 → m2 ≤ r → B ≤ gval h1 m2 := bGE1 B hB
        by_cases hmj : m ≤ j
        · rw [hLeq m hm hmj]
          exact bGE2 B (fun m2 hm2 hm2j => hB1 m2 hm2 (by omega)) m hm hmj
        · by_cases hmi : m < i
          · rw [hMeq m (by omega) hmi]
            exact hB1 m hm hmr
          · refine bGE3 B ?_ m (by omega) hmr
            intro m2 hm2 hm2r
            rw [hReq m2 hm2 hm2r]
            exact hB1 m2 (by omega) hm2r

/-- Position-wise monotone digests give a sorted list. -/
theorem sorted_of_gval_mono (out : List Digest)
    (hsort : ∀ m m' : ℤ, 0 ≤ m → m ≤ m' → m' ≤ (out.length : ℤ) - 1 →
      gval out m ≤ gval out m') : List.Sorted (· ≤ ·) out := by
  apply List.pairwise_iff_getElem.mpr
  intro a b ha hb hab
  have h := hsort a b (by omega) (by exact_mod_cast le_of_lt hab) (by omega)
  rw [gval, gval, Int.toNat_ofNat, Int.toNat_ofNat,
    List.getD_eq_getElem _ _ ha, List.getD_eq_getElem _ _ hb] at h
  exact h

/-- The `quicksortF` run underlying `sortHashes` succeeds, and its value is
`sortHashes`; the result is a sorted permutation of the input. -/
theorem sortHashes_run (hashes : List Digest) :
    ∃ out, quicksortF (quickFuel hashes.length) hashes 0
        ((hashes.length : ℤ) - 1) = some out ∧
      sortHashes hashes = out ∧ out.Perm hashes ∧
      List.Sorted (· ≤ ·) out := by
  obtain ⟨out, hrun, hperm, hlen, _, hsort, _, _⟩ :=
    quicksortF_spec (quickFuel hashes.length) hashes 0
      ((hashes.length : ℤ) - 1) (le_refl 0) (by omega)
      (by simp only [quickFuel]; omega)
  refine ⟨out, hrun, by rw [sortHashes, hrun]; rfl, hperm, ?_⟩
  apply sorted_of_gval_mono
  intro m m' hm hmm hm'
  exact hsort m m' hm hmm (by omega)

/-- `sortHashes` permutes its input. -/
theorem sortHashes_perm (hashes : List Digest) :
    (sortHashes hashes).Perm hashes := by
  obtain ⟨out, _, heq, hperm, _⟩ := sortHashes_run hashes
  rw [heq]
  exact hperm

/-- `sortHashes` sorts its input. -/
theorem sortHashes_sorted (hashes : List Digest) :
    List.Sorted (· ≤ ·) (sortHashes hashes) := by
  obtain ⟨out, _, heq, _, hsorted⟩ := sortHashes_run hashes
  rw [heq]
  exact hsorted

/-- On a sorted list, the adjacent-equality scan signals exactly the
presence of a duplicate. -/
theorem adjEqScan_false_iff : ∀ (l : List Digest),
    List.Sorted (· ≤ ·) l → (adjEqScan l = false ↔ ¬l.Nodup) := by
  intro l
  induction l with
  | nil => intro _; simp [adjEqScan]
  | cons a t ih =>
    intro hs
    cases t with
    | nil => simp [adjEqScan]
    | cons b t' =>
      obtain ⟨hrel, hst⟩ := List.sorted_cons.mp hs
      by_cases hab : a = b
      · rw [adjEqScan, if_pos hab]
        refine ⟨fun _ => ?_, fun _ => rfl⟩
        intro hnd
        exact (List.nodup_cons.mp hnd).1 (hab ▸ List.mem_cons_self a _)
      · rw [adjEqScan, if_neg hab]
        have hnotmem : a ∉ b :: t' := by
          intro hmem
          rcases List.mem_cons.mp hmem with hcase | hcase
          · exact hab hcase
          · have hba : b ≤ a := (List.sorted_cons.mp hst).1 a hcase
            have hableq : a ≤ b := hrel b (List.mem_cons_self b t')
            exact hab (le_antisymm hableq hba)
        have hiff : (a :: b :: t').Nodup ↔ (b :: t').Nodup := by
          rw [List.nodup_cons]
          exact ⟨fun h => h.2, fun h => ⟨hnotmem, h⟩⟩
        rw [ih hst, not_congr hiff]

/-- C8: `uniqueHashes` returns `false` exactly on the lists containing a
repeated digest, and `true` exactly on the lists of pairwise distinct
digests. -/
theorem uniqueHashes_false_iff (hashes : List Digest) :
    uniqueHashes hashes = false ↔ ¬hashes.Nodup := by
  rw [uniqueHashes, adjEqScan_false_iff _ (sortHashes_sorted hashes)]
  exact not_congr (List.Perm.nodup_iff (sortHashes_perm hashes))

/-- `uniqueHashes` in the positive formulation. -/
theorem uniqueHashes_true_iff (hashes : List Digest) :
    uniqueHashes hashes = true ↔ hashes.Nodup := by
  rcases h : uniqueHashes hashes with _ | _
  · simp only [Bool.false_eq_true, false_iff]
    exact (uniqueHashes_false_iff hashes).mp h
  · simp only [true_iff]
    by_contra hnd
    rw [(uniqueHashes_false_iff hashes).mpr hnd] at h
    cases h

/-- C10: for every input list and any fuel of at least `quickFuel`, the
`quicksort` recursion of `sortHashes` terminates without any out-of-range
access, producing a sorted permutation; `sortHashes` is that value. -/
theorem quicksort_terminates (hashes : List Digest) (fuel : ℕ)
    (hfuel : quickFuel hashes.length ≤ fuel) :
    ∃ out, quicksortF fuel hashes 0 ((hashes.length : ℤ) - 1) = some out ∧
      out.Perm hashes ∧ List.Sorted (· ≤ ·) out := by
  obtain ⟨out, hrun, hperm, hlen, _, hsort, _, _⟩ :=
    quicksortF_spec fuel hashes 0 ((hashes.length : ℤ) - 1) (le_refl 0)
      (by omega) (by simp only [quickFuel] at hfuel; omega)
  refine ⟨out, hrun, hperm, ?_⟩
  apply sorted_of_gval_mono
  intro m m' hm hmm hm'
  exact hsort m m' hm hmm (by omega)

/-- Witness for C10 on a concrete reverse-sorted list. -/
theorem quicksort_terminates_witness :
    quickFuel ([3, 2, 1] : List Digest).length ≤ 28 ∧
    ∃ out, quicksortF 28 [3, 2, 1] 0 (((3 : ℕ) : ℤ) - 1) = some out ∧
      out.Perm [3, 2, 1] ∧ List.Sorted (· ≤ ·) out :=
  ⟨by decide, quicksort_terminates [3, 2, 1] 28 (by decide)⟩

/-- C3 (amended): when the list-shape checks pass — equal-length lists and a
signature of the first key system declared positive signature length — a
duplicated digest makes `AggregateVerify` return the distinct-hashes error
(the spec kind `DuplicateMessageError`) without any boolean verdict. -/
theorem aggregateVerify_duplicate (r : ℕ) (hG1 : Digest → ZMod r)
    (signature : Sig r) (hashes : List Digest) (keys : List (PublicKey r))
    (hlen : hashes.length = keys.length) (hdup : ¬hashes.Nodup)
    (hpos : 0 < (keys.getD 0 default).system.signatureLength)
    (hsl : (keys.getD 0 default).system.signatureLength = signature.len) :
    AggregateVerify r hG1 signature hashes keys =
      .error .hashesNotDistinct := by
  have hne : hashes.length ≠ 0 := by
    intro hc
    rw [List.length_eq_zero] at hc
    rw [hc] at hdup
    exact hdup List.nodup_nil
  have huniq : uniqueHashes hashes = false :=
    (uniqueHashes_false_iff hashes).mpr hdup
  rw [AggregateVerify, if_neg hne, if_neg (not_not.mpr hlen),
    if_neg (not_le.mpr hpos), if_neg (not_not.mpr hsl), huniq]
  rfl

/-- C3 counterexample to the unrestricted claim: with a duplicated digest
but a signature whose byte length differs from the system signature length,
`AggregateVerify` returns the length-mismatch error, not the
distinct-hashes error. -/
theorem aggregateVerify_duplicate_counterexample :
    ¬([7, 7] : List Digest).Nodup ∧
    AggregateVerify 5 (fun u => (u : ZMod 5)) ⟨2, 0⟩ [7, 7]
      [⟨⟨0, 1⟩, 0⟩, ⟨⟨0, 1⟩, 0⟩] = .error .sigLenMismatch ∧
    AggregateVerify 5 (fun u => (u : ZMod 5)) ⟨2, 0⟩ [7, 7]
      [⟨⟨0, 1⟩, 0⟩, ⟨⟨0, 1⟩, 0⟩] ≠ .error .hashesNotDistinct := by
  refine ⟨by decide, ?_, ?_⟩
  · rfl
  · intro h
    cases h

/-- Witness for the amended C3 at a concrete duplicated-digest input. -/
theorem aggregateVerify_duplicate_witness :
    AggregateVerify 5 (fun u => (u : ZMod 5)) ⟨1, 0⟩ [7, 7]
      [⟨⟨0, 1⟩, 0⟩, ⟨⟨0, 1⟩, 0⟩] = .error .hashesNotDistinct :=
  aggregateVerify_duplicate 5 (fun u => (u : ZMod 5)) ⟨1, 0⟩ [7, 7]
    [⟨⟨0, 1⟩, 0⟩, ⟨⟨0, 1⟩, 0⟩] (by decide) (by decide) (by decide)
    (by decide)

/-- The store after `uniqueHashesS`: the fresh copy, sorted, is appended at
the next address, and nothing else changes. -/
theorem uniqueHashesS_store (store : List (List Digest)) (ref : ℕ) :
    (uniqueHashesS store ref).2 =
      store ++ [sortHashes (store.getD ref [])] := by
  rw [uniqueHashesS, sortHashesS]
  have hget : (store ++ [store.getD ref []]).getD store.length [] =
      store.getD ref [] := by
    rw [List.getD_eq_getElem?_getD, List.getElem?_append_right (le_refl _)]
    simp
  rw [hget, List.set_append_right _ _ (le_refl store.length)]
  simp

/-- The verdict of `uniqueHashesS` is the verdict of `uniqueHashes` on the
referenced digests. -/
theorem uniqueHashesS_fst (store : List (List Digest)) (ref : ℕ) :
    (uniqueHashesS store ref).1 = uniqueHashes (store.getD ref []) := by
  have hfst : (uniqueHashesS store ref).1 =
      adjEqScan (((uniqueHashesS store ref).2).getD store.length []) := rfl
  rw [hfst, uniqueHashesS_store, List.getD_eq_getElem?_getD,
    List.getElem?_append_right (le_refl _)]
  simp [uniqueHashes]

/-- Every pre-existing slice is unchanged by `uniqueHashesS`. -/
theorem uniqueHashesS_frame (store : List (List Digest)) (ref ref2 : ℕ)
    (h2 : ref2 < store.length) :
    ((uniqueHashesS store ref).2).getD ref2 [] = store.getD ref2 [] := by
  rw [uniqueHashesS_store, List.getD_eq_getElem?_getD,
    List.getElem?_append_left h2, ← List.getD_eq_getElem?_getD]

/-- C9: `AggregateVerifyS` never writes any pre-existing slice — in
particular the caller digest slice at `ref` holds the same digests in the
same order after the call, on every success and every error path — and its
verdict is that of the pure `AggregateVerify` on the referenced digests. -/
theorem aggregateVerifyS_frame (r : ℕ) (hG1 : Digest → ZMod r)
    (signature : Sig r) (store : List (List Digest)) (ref : ℕ)
    (keys : List (PublicKey r)) (href : ref < store.length) :
    (∀ ref2, ref2 < store.length →
      ((AggregateVerifyS r hG1 signature store ref keys).2).getD ref2 [] =
        store.getD ref2 []) ∧
    (AggregateVerifyS r hG1 signature store ref keys).1 =
      AggregateVerify r hG1 signature (store.getD ref []) keys := by
  by_cases h1 : (store.getD ref []).length = 0
  · have heS : AggregateVerifyS r hG1 signature store ref keys =
        (.error .emptyList, store) := by
      simp only [AggregateVerifyS, if_pos h1]
    have heP : AggregateVerify r hG1 signature (store.getD ref []) keys =
        .error .emptyList := by
      simp only [AggregateVerify, if_pos h1]
    rw [heS, heP]
    exact ⟨fun ref2 _ => rfl, rfl⟩
  · by_cases h2 : (store.getD ref []).length ≠ keys.length
    · have heS : AggregateVerifyS r hG1 signature store ref keys =
          (.error .listLengthMismatch, store) := by
        simp only [AggregateVerifyS, if_neg h1, if_pos h2]
      have heP : AggregateVerify r hG1 signature (store.getD ref []) keys =
          .error .listLengthMismatch := by
        simp only [AggregateVerify, if_neg h1, if_pos h2]
      rw [heS, heP]
      exact ⟨fun ref2 _ => rfl, rfl⟩
    · by_cases h3 : (keys.getD 0 default).system.signatureLength ≤ 0
      · have heS : AggregateVerifyS r hG1 signature store ref keys =
            (.error .sigLenNonPositive, store) := by
          simp only [AggregateVerifyS, if_neg h1, if_neg h2, if_pos h3]
        have heP : AggregateVerify r hG1 signature (store.getD ref [])
            keys = .error .sigLenNonPositive := by
          simp only [AggregateVerify, if_neg h1, if_neg h2, if_pos h3]
        rw [heS, heP]
        exact ⟨fun ref2 _ => rfl, rfl⟩
      · by_cases h4 : (keys.getD 0 default).system.signatureLength ≠
            signature.len
        · have heS : AggregateVerifyS r hG1 signature store ref keys =
              (.error .sigLenMismatch, store) := by
            simp only [AggregateVerifyS, if_neg h1, if_neg h2, if_neg h3,
              if_pos h4]
          have heP : AggregateVerify r hG1 signature (store.getD ref [])
              keys = .error .sigLenMismatch := by
            simp only [AggregateVerify, if_neg h1, if_neg h2, if_neg h3,
              if_pos h4]
          rw [heS, heP]
          exact ⟨fun ref2 _ => rfl, rfl⟩
        · have hframe : ∀ ref2, ref2 < store.length →
              ((uniqueHashesS store ref).2).getD ref2 [] =
                store.getD ref2 [] :=
            fun ref2 hr2 => uniqueHashesS_frame store ref ref2 hr2
          rcases hbool : uniqueHashes (store.getD ref []) with _ | _
          · have heS : AggregateVerifyS r hG1 signature store ref keys =
                (.error .hashesNotDistinct, (uniqueHashesS store ref).2) := by
              simp only [AggregateVerifyS, if_neg h1, if_neg h2, if_neg h3,
                if_neg h4, uniqueHashesS_fst, hbool]
              rfl
            have heP : AggregateVerify r hG1 signature (store.getD ref [])
                keys = .error .hashesNotDistinct := by
              simp only [AggregateVerify, if_neg h1, if_neg h2, if_neg h3,
                if_neg h4, hbool]
              rfl
            rw [heS, heP]
            exact ⟨hframe, rfl⟩
          · have heS : AggregateVerifyS r hG1 signature store ref keys =
                (AggregateVerify r hG1 signature (store.getD ref []) keys,
                  (uniqueHashesS store ref).2) := by
              simp only [AggregateVerifyS, AggregateVerify, if_neg h1,
                if_neg h2, if_neg h3, if_neg h4, uniqueHashesS_fst, hbool]
              rfl
            rw [heS]
            exact ⟨hframe, rfl⟩

/-- Witness for C9 at a concrete store: two slices, the referenced one with
a duplicate digest (so the call takes the sorting path and fails), both
slices unchanged. -/
theorem aggregateVerifyS_frame_witness :
    (0 : ℕ) < ([[9, 9], [4]] : List (List Digest)).length ∧
    (∀ ref2, ref2 < ([[9, 9], [4]] : List (List Digest)).length →
      ((AggregateVerifyS 5 (fun u => (u : ZMod 5)) ⟨1, 0⟩ [[9, 9], [4]] 0
        [⟨⟨0, 1⟩, 0⟩, ⟨⟨0, 1⟩, 0⟩]).2).getD ref2 [] =
        ([[9, 9], [4]] : List (List Digest)).getD ref2 []) ∧
    (AggregateVerifyS 5 (fun u => (u : ZMod 5)) ⟨1, 0⟩ [[9, 9], [4]] 0
        [⟨⟨0, 1⟩, 0⟩, ⟨⟨0, 1⟩, 0⟩]).1 =
      AggregateVerify 5 (fun u => (u : ZMod 5)) ⟨1, 0⟩
        (([[9, 9], [4]] : List (List Digest)).getD 0 [])
        [⟨⟨0, 1⟩, 0⟩, ⟨⟨0, 1⟩, 0⟩] :=
  ⟨by decide, aggregateVerifyS_frame 5 (fun u => (u : ZMod 5)) ⟨1, 0⟩
    [[9, 9], [4]] 0 [⟨⟨0, 1⟩, 0⟩, ⟨⟨0, 1⟩, 0⟩] (by decide)⟩

end GoBls
